import Mathlib

/-!
# carbonsearch: the split index, the full index and the query parser

A shallow embedding of `index/split/split.go`, `index/full/full.go` and of
`parseQuery` in `main.go`.

* A Go `map[K]V` is the list of its entries, in the order in which `range`
  visits them.  Go leaves that order unspecified; the embedding fixes it to
  insertion order, and what a query returns is described through membership,
  multiplicity or permutation only, so no result depends on the choice.
* A method with a pointer receiver that returns `error` becomes a function
  returning the receiver after the call together with `Option Error`.
* The mutexes only serialise the calls; each operation is modelled as one
  atomic step.
* `int` counters are `Nat`: they count entries held in memory and cannot
  reach `2^63`.
-/

namespace Carbonsearch

/-- A Go `map[κ]ν`: its entries in iteration order. A state of a real Go map
has no key twice, see `GoMap.WF`. -/
abbrev GoMap (κ : Type) (ν : Type) := List (κ × ν)

namespace GoMap

variable {κ ν : Type} [DecidableEq κ]

/-- The two-valued lookup `v, ok := m[k]`; `none` is `ok == false`. -/
def get? : GoMap κ ν → κ → Option ν
  | [], _ => none
  | (k', v) :: rest, k => if k' = k then some v else get? rest k

/-- The assignment `m[k] = v`: overwrites the entry of `k`, or adds one. -/
def set : GoMap κ ν → κ → ν → GoMap κ ν
  | [], k, v => [(k, v)]
  | (k', v') :: rest, k, v =>
    if k' = k then (k', v) :: rest else (k', v') :: set rest k v

/-- The keys in the order `for k := range m` visits them. -/
def keys (m : GoMap κ ν) : List κ := m.map Prod.fst

/-- The invariant of a Go map: no key occurs twice. -/
def WF (m : GoMap κ ν) : Prop := m.keys.Nodup

instance (m : GoMap κ ν) : Decidable m.WF := by
  unfold WF; infer_instance

end GoMap

/-- The errors built by `fmt.Errorf`, one constructor per format string, with
the formatted argument. -/
inductive Error where
  /-- split.go: "cannot add 0 metrics to join %q" -/
  | cannotAddZeroMetrics (join : String)
  /-- split.go: "cannot add 0 tags to join %q" -/
  | cannotAddZeroTags (join : String)
  /-- full.go: "can't associate tags with 0 metrics" -/
  | zeroMetrics
  /-- full.go: "can't associate metrics with 0 tags" -/
  | zeroTags
  /-- main.go: "main: the query is not a valid virtual metric (must start
  with %q): %s" -/
  | notVirtual (virtPrefix : String) (query : String)
  /-- main.go: "parseQuery: max query size is %v, but this query has %v tags.
  try again with a smaller query" -/
  | queryTooLarge (queryLimit : Int) (tags : Nat)
  /-- The error of `tag.Parse` on a token that is not a tag. -/
  | malformedTag (tag : String)
  deriving DecidableEq, Repr

/-- A set of strings as Go writes it: `map[string]bool`. -/
abbrev StrSet := GoMap String Bool

/-- The single-valued read `m[k]` of a `map[string]map[string]bool`: the nil
map (no entries) when `k` is absent. -/
def bucket (m : GoMap String StrSet) (k : String) : StrSet :=
  (m.get? k).getD []

/-- The Go invariant of a `map[string]map[string]bool`: no key twice in the
outer map, nor in any of its buckets. -/
def SetMapWF (m : GoMap String StrSet) : Prop :=
  m.WF ∧ ∀ e ∈ m, e.2.WF

instance (m : GoMap String StrSet) : Decidable (SetMapWF m) := by
  unfold SetMapWF; infer_instance

/-- The statement `counts[key]++`; a key not yet in the map reads as zero. -/
def incr (counts : GoMap String Nat) (key : String) : GoMap String Nat :=
  counts.set key ((counts.get? key).getD 0 + 1)

/-- The loop `for _, x := range query { for k := range m[x] { counts[k]++ } }`
shared by both `Query` methods, started from `counts`. -/
def countKeys (m : GoMap String StrSet) (query : List String)
    (counts : GoMap String Nat) : GoMap String Nat :=
  query.foldl (fun counts tag => (bucket m tag).keys.foldl incr counts) counts

/-- The loop `for key, count := range counts { if count == n { out = append(out, key) } }`. -/
def pluck (counts : GoMap String Nat) (n : Nat) : List String :=
  counts.foldl (fun out kc => if kc.2 = n then out ++ [kc.1] else out) []

namespace Split

/-- The `Index` struct of `split.go` (without its two mutexes). -/
structure Index where
  joinKey : String
  tagToJoin : GoMap String StrSet
  tagCount : Nat
  joinToMetric : GoMap String StrSet
  metricCount : Nat
  deriving DecidableEq, Repr

/-- `NewIndex(joinKey)`: both maps empty, both counters zero. -/
def NewIndex (joinKey : String) : Index :=
  { joinKey := joinKey, tagToJoin := [], tagCount := 0,
    joinToMetric := [], metricCount := 0 }

/-- One pass of the loop body of `AddMetrics`. `metricIndex` is the map object
stored at `joinToMetric[join]`, so a write to it is a write to that entry. -/
def addMetric (join : String) (i : Index) (metric : String) : Index :=
  let metricIndex := bucket i.joinToMetric join
  match metricIndex.get? metric with
  | some _ => i
  | none =>
    { i with
      metricCount := i.metricCount + 1
      joinToMetric := i.joinToMetric.set join (metricIndex.set metric true) }

/-- `func (i *Index) AddMetrics(join string, metrics []string) error`. -/
def AddMetrics (i : Index) (join : String) (metrics : List String) :
    Index × Option Error :=
  if metrics.length = 0 then
    (i, some (Error.cannotAddZeroMetrics join))
  else
    let i1 :=
      match i.joinToMetric.get? join with
      | some _ => i
      | none => { i with joinToMetric := i.joinToMetric.set join [] }
    (metrics.foldl (addMetric join) i1, none)

/-- One pass of the loop body of `AddTags`. -/
def addTag (join : String) (i : Index) (tag : String) : Index :=
  let i1 :=
    match i.tagToJoin.get? tag with
    | some _ => i
    | none => { i with tagToJoin := i.tagToJoin.set tag [] }
  let tagIndex := bucket i1.tagToJoin tag
  match tagIndex.get? join with
  | some _ => i1
  | none =>
    { i1 with
      tagCount := i1.tagCount + 1
      tagToJoin := i1.tagToJoin.set tag (tagIndex.set join true) }

/-- `func (i *Index) AddTags(join string, tags []string) error`. -/
def AddTags (i : Index) (join : String) (tags : List String) :
    Index × Option Error :=
  if tags.length = 0 then
    (i, some (Error.cannotAddZeroTags join))
  else
    (tags.foldl (addTag join) i, none)

/-- The last loop of `Query`: every metric of every bucket of `joinKeys`. -/
def fetchMetrics (i : Index) (joinKeys : List String) : List String :=
  joinKeys.foldl
    (fun metrics joinKey =>
      (bucket i.joinToMetric joinKey).keys.foldl
        (fun metrics metric => metrics ++ [metric]) metrics)
    []

/-- `func (i *Index) Query(query []string) ([]string, error)`. The receiver is
only read. -/
def Query (i : Index) (query : List String) : List String × Option Error :=
  let joinKeyCounts := countKeys i.tagToJoin query []
  let joinKeys := pluck joinKeyCounts query.length
  (fetchMetrics i joinKeys, none)

/-- `TagSize()`. -/
def TagSize (i : Index) : Nat := i.tagCount

/-- `MetricSize()`. -/
def MetricSize (i : Index) : Nat := i.metricCount

/-- `Name()`. -/
def Name (i : Index) : String := i.joinKey

/-- The states a Go `Index` can be in: both maps are Go maps. -/
def Index.WF (i : Index) : Prop :=
  SetMapWF i.tagToJoin ∧ SetMapWF i.joinToMetric

instance (i : Index) : Decidable i.WF := by
  unfold Index.WF; infer_instance

/-- The states reached from `NewIndex` by calls of `AddMetrics` and `AddTags`,
failing calls included (`Query` does not write). -/
inductive Reachable : Index → Prop
  | newIndex (joinKey : String) : Reachable (NewIndex joinKey)
  | addMetrics {i : Index} (join : String) (metrics : List String) :
      Reachable i → Reachable (AddMetrics i join metrics).1
  | addTags {i : Index} (join : String) (tags : List String) :
      Reachable i → Reachable (AddTags i join tags).1

end Split

namespace Full

/-- The `Index` struct of `full.go` (without its mutex). -/
structure Index where
  index : GoMap String StrSet
  tagSize : Nat
  metricSize : Nat
  deriving DecidableEq, Repr

/-- `NewIndex()`. -/
def NewIndex : Index := { index := [], tagSize := 0, metricSize := 0 }

/-- One pass of the inner loop of `Add`; `associatedMetrics` is the map object
stored at `index[tag]`. -/
def addMetric (tag : String) (i : Index) (metric : String) : Index :=
  let associatedMetrics := bucket i.index tag
  match associatedMetrics.get? metric with
  | some _ => i
  | none =>
    { i with
      metricSize := i.metricSize + 1
      index := i.index.set tag (associatedMetrics.set metric true) }

/-- One pass of the outer loop of `Add`. -/
def addTag (metrics : List String) (i : Index) (tag : String) : Index :=
  let i1 :=
    match i.index.get? tag with
    | some _ => i
    | none => { i with tagSize := i.tagSize + 1, index := i.index.set tag [] }
  metrics.foldl (addMetric tag) i1

/-- `func (i *Index) Add(tags []string, metrics []string) error`. -/
def Add (i : Index) (tags : List String) (metrics : List String) :
    Index × Option Error :=
  if metrics.length = 0 then
    (i, some Error.zeroMetrics)
  else if tags.length = 0 then
    (i, some Error.zeroTags)
  else
    (tags.foldl (addTag metrics) i, none)

/-- `func (i *Index) Query(query []string) ([]string, error)`. -/
def Query (i : Index) (query : List String) : List String × Option Error :=
  let metricCounts := countKeys i.index query []
  (pluck metricCounts query.length, none)

/-- `TagSize()`. -/
def TagSize (i : Index) : Nat := i.tagSize

/-- `MetricSize()`. -/
def MetricSize (i : Index) : Nat := i.metricSize

/-- The states a Go `Index` can be in: `index` is a Go map. -/
def Index.WF (i : Index) : Prop := SetMapWF i.index

instance (i : Index) : Decidable i.WF := by
  unfold Index.WF; infer_instance

/-- The states reached from `NewIndex` by calls of `Add`, failing calls
included (`Query` does not write). -/
inductive Reachable : Index → Prop
  | newIndex : Reachable NewIndex
  | add {i : Index} (tags metrics : List String) :
      Reachable i → Reachable (Add i tags metrics).1

end Full

/-! ## The scenarios of the test and of the specification -/

/-- The index of `TestQuery`: one host, one metric, two tags. -/
def testIndex : Split.Index :=
  (Split.AddTags
    (Split.AddMetrics (Split.NewIndex "host") "hostname-1234" ["server.hostname-1234"]).1
    "hostname-1234" ["server-state:live", "server-dc:lhr"]).1

/-- An index that has seen metrics for a host, and no tag yet. -/
def metricsOnlyIndex : Split.Index :=
  (Split.AddMetrics (Split.NewIndex "host") "hostname-1234" ["server.hostname-1234"]).1

/-- A host tagged `a` and `b`, with the metric `m`. -/
def twoTagIndex : Split.Index :=
  (Split.AddTags (Split.AddMetrics (Split.NewIndex "host") "h" ["m"]).1 "h" ["a", "b"]).1

/-- The full index after `Add([custom-fav:alice], [m1, m2])` and
`Add([custom-fav:alice, custom-team:red], [m2, m3])`. -/
def customIndex : Full.Index :=
  (Full.Add (Full.Add Full.NewIndex ["custom-fav:alice"] ["m1", "m2"]).1
    ["custom-fav:alice", "custom-team:red"] ["m2", "m3"]).1

/-! ## Sizes and sequences of operations -/

/-- The sum, over the keys `t` of the map, of `len(m[t])`: the number of pairs
the map of sets holds. -/
def pairCount (m : GoMap String StrSet) : Nat :=
  (m.keys.map (fun t => (bucket m t).length)).sum

/-- A call on a split index. -/
inductive Split.Op where
  | addMetrics (join : String) (metrics : List String)
  | addTags (join : String) (tags : List String)
  | query (tags : List String)
  deriving DecidableEq, Repr

/-- The receiver after one call; `Query` never writes to it. -/
def Split.step (i : Split.Index) : Split.Op → Split.Index
  | Split.Op.addMetrics join metrics => (Split.AddMetrics i join metrics).1
  | Split.Op.addTags join tags => (Split.AddTags i join tags).1
  | Split.Op.query _ => i

/-- The receiver after a sequence of calls. -/
def Split.run (i : Split.Index) (ops : List Split.Op) : Split.Index :=
  ops.foldl Split.step i

/-- A call on the full index. -/
inductive Full.Op where
  | add (tags : List String) (metrics : List String)
  | query (tags : List String)
  deriving DecidableEq, Repr

/-- The receiver after one call; `Query` never writes to it. -/
def Full.step (i : Full.Index) : Full.Op → Full.Index
  | Full.Op.add tags metrics => (Full.Add i tags metrics).1
  | Full.Op.query _ => i

/-- The receiver after a sequence of calls. -/
def Full.run (i : Full.Index) (ops : List Full.Op) : Full.Index :=
  ops.foldl Full.step i

/-- Every pair `(k, x)` with `x` in the set `m[k]` is still a pair of `m'`:
each stored set has only grown. -/
def Grows (m m' : GoMap String StrSet) : Prop :=
  ∀ k x, x ∈ (bucket m k).keys → x ∈ (bucket m' k).keys

/-! ## The query parser of `main.go`

A Go `string` is a Lean `String`, handled through its list of characters. The
separator `.` and the characters of the prefix are compared one by one, as Go
compares bytes; on UTF-8 text the two agree. -/

/-- `strings.Split(s, ".")` on the characters of `s`: the pieces between the
dots, so one piece more than there are dots (`[""]` for the empty string). -/
def splitDots : List Char → List (List Char)
  | [] => [[]]
  | c :: cs =>
    if c = '.' then [] :: splitDots cs
    else
      match splitDots cs with
      | [] => [[c]]
      | piece :: pieces => (c :: piece) :: pieces

/-- The tokens of a query: `strings.Split(strings.TrimPrefix(query, virtPrefix), ".")`
for a query that starts with `virtPrefix`. -/
def queryTokens (virtPrefix : String) (query : String) : List String :=
  (splitDots (query.data.drop virtPrefix.data.length)).map String.mk

/-- The service `tag.Parse` finds in a token, if it accepts the token. -/
def serviceOf (Parse : String → Except Error (String × String)) (queryTag : String) :
    Option String :=
  match Parse queryTag with
  | Except.ok (service, _) => some service
  | Except.error _ => none

/-- The loop of `parseQuery` over the tokens still to read; `tagsByService` is
the map built so far. The first token `tag.Parse` rejects ends the loop with
its error. (The bump of the `QueryTagsByService` telemetry counter is left
out.) -/
def groupTags (Parse : String → Except Error (String × String)) :
    List String → GoMap String (List String) → Except Error (GoMap String (List String))
  | [], tagsByService => Except.ok tagsByService
  | queryTag :: rest, tagsByService =>
    match Parse queryTag with
    | Except.error err => Except.error err
    | Except.ok (service, _) =>
      let m1 :=
        match tagsByService.get? service with
        | some _ => tagsByService
        | none => tagsByService.set service []
      groupTags Parse rest (m1.set service ((m1.get? service).getD [] ++ [queryTag]))

/-- `func parseQuery(queryLimit int, query string) (map[string][]string, error)`.
The package `tag` and the global `virtPrefix` are parameters. -/
def parseQuery (Parse : String → Except Error (String × String)) (virtPrefix : String)
    (queryLimit : Int) (query : String) : Except Error (GoMap String (List String)) :=
  if ¬ virtPrefix.data.isPrefixOf query.data then
    Except.error (Error.notVirtual virtPrefix query)
  else
    let tags := queryTokens virtPrefix query
    if (tags.length : Int) > queryLimit then
      Except.error (Error.queryTooLarge queryLimit tags.length)
    else
      groupTags Parse tags []

/-- Modelled from the spec: `tag.Parse`, of the package `tag`, of which only
the test is among the sources. "A printable tag has the shape
`service-key:value` where `service` is `[A-Za-z]+`, followed by one `-`,
followed by a `key:value` part containing at least one `:` and no `.`.
`Parse(tag)` yields `(service, "key:value")` or fails with malformed-tag." -/
def Tag.Parse (tag : String) : Except Error (String × String) :=
  let service := tag.data.takeWhile Char.isAlpha
  match tag.data.drop service.length with
  | '-' :: kv =>
    if service ≠ [] ∧ ':' ∈ kv ∧ '.' ∉ kv then
      Except.ok (String.mk service, String.mk kv)
    else
      Except.error (Error.malformedTag tag)
  | _ => Except.error (Error.malformedTag tag)

/-- A join key, as `split.go` holds it. -/
abbrev Split.Join := String

/-- Modelled from the spec: `IntersectJoins`, which `TestIntersectJoins` calls
and `split.go` does not define. "Compute [...] the multiset of join
fingerprints across all queried tags. Keep exactly those join fingerprints
whose occurrence count equals the number of queried tags — this is the AND
intersection on the tag side": the counting loop of `Query`, run over the join
lists. -/
def Split.IntersectJoins (joinSets : List (List Split.Join)) : List Split.Join :=
  pluck (joinSets.foldl (fun counts joins => joins.foldl incr counts) []) joinSets.length

/-- Two hosts with the tag `server-state:live`, each with a metric of its
own. -/
def twoHostIndex : Split.Index :=
  (Split.AddTags
    (Split.AddMetrics
      (Split.AddTags
        (Split.AddMetrics (Split.NewIndex "host") "h1" ["m1"]).1
        "h1" ["server-state:live"]).1
      "h2" ["m2"]).1
    "h2" ["server-state:live"]).1

/-- Two hosts with the tag `server-state:live` and the same metric `m`. -/
def sharedMetricIndex : Split.Index :=
  (Split.AddTags
    (Split.AddMetrics
      (Split.AddTags
        (Split.AddMetrics (Split.NewIndex "host") "h1" ["m"]).1
        "h1" ["server-state:live"]).1
      "h2" ["m"]).1
    "h2" ["server-state:live"]).1

/-! ## Go maps: lookup after assignment -/

namespace GoMap

variable {κ ν : Type} [DecidableEq κ]

theorem get?_set_self (m : GoMap κ ν) (k : κ) (v : ν) :
    (m.set k v).get? k = some v := by
  induction m with
  | nil => simp [set, get?]
  | cons e rest ih =>
    obtain ⟨k', v'⟩ := e
    by_cases h : k' = k <;> simp [set, get?, h, ih]

theorem get?_set_ne (m : GoMap κ ν) {k k' : κ} (v : ν) (h : k ≠ k') :
    (m.set k v).get? k' = m.get? k' := by
  induction m with
  | nil => simp [set, get?, h]
  | cons e rest ih =>
    obtain ⟨k₀, v₀⟩ := e
    by_cases h₀ : k₀ = k
    · subst h₀; simp [set, get?, h]
    · by_cases h₁ : k₀ = k'
      · subst h₁; simp [set, get?, h₀]
      · simp [set, get?, h₀, h₁, ih]

theorem keys_set (m : GoMap κ ν) (k : κ) (v : ν) :
    (m.set k v).keys = if k ∈ m.keys then m.keys else m.keys ++ [k] := by
  induction m with
  | nil => simp [set, keys]
  | cons e rest ih =>
    obtain ⟨k₀, v₀⟩ := e
    by_cases h₀ : k₀ = k
    · subst h₀; simp [set, keys]
    · have h₁ : ¬ k = k₀ := fun h => h₀ h.symm
      simp only [keys] at ih
      by_cases hm : k ∈ List.map Prod.fst rest <;>
        simp [set, keys, h₀, h₁, hm, ih]

theorem mem_keys_set (m : GoMap κ ν) (k a : κ) (v : ν) :
    a ∈ (m.set k v).keys ↔ a = k ∨ a ∈ m.keys := by
  rw [keys_set]
  by_cases hm : k ∈ m.keys
  · simp only [hm, if_true]
    constructor
    · exact fun h => Or.inr h
    · rintro (rfl | h)
      · exact hm
      · exact h
  · simp only [hm, if_false, List.mem_append, List.mem_singleton]
    tauto

theorem get?_eq_none_iff (m : GoMap κ ν) (k : κ) :
    m.get? k = none ↔ k ∉ m.keys := by
  induction m with
  | nil => simp [get?, keys]
  | cons e rest ih =>
    obtain ⟨k₀, v₀⟩ := e
    simp only [keys] at ih
    by_cases h₀ : k₀ = k
    · subst h₀; simp [get?, keys]
    · have h₁ : ¬ k = k₀ := fun h => h₀ h.symm
      simp [get?, keys, h₀, h₁, ih]

theorem get?_isSome_iff (m : GoMap κ ν) (k : κ) :
    (m.get? k).isSome ↔ k ∈ m.keys := by
  rw [← not_iff_not, ← get?_eq_none_iff]
  cases m.get? k <;> simp

theorem WF_set {m : GoMap κ ν} (h : m.WF) (k : κ) (v : ν) : (m.set k v).WF := by
  unfold WF at *
  rw [keys_set]
  by_cases hm : k ∈ m.keys
  · simpa [hm] using h
  · simp only [hm, if_false]
    exact List.Nodup.append h (List.nodup_singleton k) (by simpa using hm)

theorem set_eq_self {m : GoMap κ ν} {k : κ} {v : ν} (h : m.get? k = some v) :
    m.set k v = m := by
  induction m with
  | nil => simp [get?] at h
  | cons e rest ih =>
    obtain ⟨k₀, v₀⟩ := e
    by_cases h₀ : k₀ = k
    · subst h₀
      simp only [get?, if_true, Option.some.injEq] at h
      simp [set, h]
    · simp only [get?, h₀, if_false] at h
      simp [set, h₀, ih h]

theorem mem_of_get? {m : GoMap κ ν} {k : κ} {v : ν} (h : m.get? k = some v) :
    (k, v) ∈ m := by
  induction m with
  | nil => simp [get?] at h
  | cons e rest ih =>
    obtain ⟨k₀, v₀⟩ := e
    by_cases h₀ : k₀ = k
    · subst h₀
      simp only [get?, if_true, Option.some.injEq] at h
      simp [h]
    · simp only [get?, h₀, if_false] at h
      exact List.mem_cons_of_mem _ (ih h)

theorem mem_set {m : GoMap κ ν} {k : κ} {v : ν} {e : κ × ν}
    (h : e ∈ m.set k v) : e = (k, v) ∨ e ∈ m := by
  induction m with
  | nil => simpa [set] using h
  | cons e₀ rest ih =>
    obtain ⟨k₀, v₀⟩ := e₀
    by_cases h₀ : k₀ = k
    · subst h₀
      simp only [set, if_true, List.mem_cons] at h
      rcases h with h | h
      · exact Or.inl h
      · exact Or.inr (List.mem_cons_of_mem _ h)
    · simp only [set, h₀, if_false, List.mem_cons] at h
      rcases h with h | h
      · exact Or.inr (by simp [h])
      · rcases ih h with h | h
        · exact Or.inl h
        · exact Or.inr (List.mem_cons_of_mem _ h)

end GoMap

theorem bucket_set_self (m : GoMap String StrSet) (k : String) (b : StrSet) :
    bucket (m.set k b) k = b := by
  simp [bucket, GoMap.get?_set_self]

theorem bucket_set_ne (m : GoMap String StrSet) {k k' : String} (b : StrSet)
    (h : k ≠ k') : bucket (m.set k b) k' = bucket m k' := by
  simp [bucket, GoMap.get?_set_ne m b h]

theorem bucket_WF {m : GoMap String StrSet} (h : SetMapWF m) (k : String) :
    (bucket m k).WF := by
  unfold bucket
  cases hg : m.get? k with
  | none => simp [GoMap.WF, GoMap.keys]
  | some b => exact h.2 _ (GoMap.mem_of_get? hg)

/-! ## The counting loop of `Query` -/

theorem get?_incr_self (c : GoMap String Nat) (k : String) :
    (incr c k).get? k = some ((c.get? k).getD 0 + 1) := by
  simp [incr, GoMap.get?_set_self]

theorem get?_incr_ne (c : GoMap String Nat) {k k' : String} (h : k ≠ k') :
    (incr c k).get? k' = c.get? k' := by
  simp [incr, GoMap.get?_set_ne c _ h]

theorem WF_incr {c : GoMap String Nat} (h : c.WF) (k : String) : (incr c k).WF :=
  GoMap.WF_set h _ _

theorem WF_foldl_incr (ks : List String) {c : GoMap String Nat} (h : c.WF) :
    (ks.foldl incr c).WF := by
  induction ks generalizing c with
  | nil => exact h
  | cons k ks ih => exact ih (WF_incr h k)

theorem WF_countKeys (m : GoMap String StrSet) (query : List String)
    {c : GoMap String Nat} (h : c.WF) : (countKeys m query c).WF := by
  unfold countKeys
  induction query generalizing c with
  | nil => exact h
  | cons t q ih => exact ih (WF_foldl_incr _ h)

/-- No counter holds zero: a key enters the map with its first increment. -/
theorem get?_foldl_incr_ne_zero (ks : List String) {c : GoMap String Nat}
    (h : ∀ k, c.get? k ≠ some 0) (k : String) : (ks.foldl incr c).get? k ≠ some 0 := by
  induction ks generalizing c with
  | nil => exact h k
  | cons k₀ ks ih =>
    apply ih
    intro k'
    by_cases hk : k₀ = k'
    · subst hk; simp [get?_incr_self]
    · rw [get?_incr_ne c hk]; exact h k'

theorem get?_countKeys_ne_zero (m : GoMap String StrSet) (query : List String)
    {c : GoMap String Nat} (h : ∀ k, c.get? k ≠ some 0) (k : String) :
    (countKeys m query c).get? k ≠ some 0 := by
  unfold countKeys
  induction query generalizing c with
  | nil => exact h k
  | cons t q ih => exact ih (fun k' => get?_foldl_incr_ne_zero _ h k')

/-- After the inner loop a counter has grown by the number of times its key
was visited. -/
theorem getD_foldl_incr (ks : List String) (c : GoMap String Nat) (k : String) :
    ((ks.foldl incr c).get? k).getD 0 = (c.get? k).getD 0 + ks.count k := by
  induction ks generalizing c with
  | nil => simp
  | cons k₀ ks ih =>
    rw [List.foldl_cons, ih]
    by_cases hk : k₀ = k
    · subst hk
      simp [get?_incr_self, List.count_cons_self]
      omega
    · rw [get?_incr_ne c hk, List.count_cons_of_ne (fun h => hk h.symm)]

/-- After the whole loop a counter has grown by the number of visits of its
key, summed over the queried tags. -/
theorem getD_countKeys (m : GoMap String StrSet) (query : List String)
    (c : GoMap String Nat) (k : String) :
    ((countKeys m query c).get? k).getD 0 =
      (c.get? k).getD 0 + (query.map (fun t => (bucket m t).keys.count k)).sum := by
  unfold countKeys
  induction query generalizing c with
  | nil => simp
  | cons t q ih =>
    rw [List.foldl_cons, ih, getD_foldl_incr]
    simp [Nat.add_assoc]

/-- In a Go map every bucket lists a key at most once, so the sum of visits is
the number of queried tags whose bucket holds the key. -/
theorem sum_count_eq_countP {m : GoMap String StrSet} (h : SetMapWF m)
    (query : List String) (k : String) :
    (query.map (fun t => (bucket m t).keys.count k)).sum =
      query.countP (fun t => decide (k ∈ (bucket m t).keys)) := by
  induction query with
  | nil => simp
  | cons t q ih =>
    rw [List.map_cons, List.sum_cons, ih, List.countP_cons]
    by_cases hk : k ∈ (bucket m t).keys
    · rw [List.count_eq_one_of_mem (bucket_WF h t) hk]
      simp [hk]; omega
    · rw [List.count_eq_zero.2 hk]
      simp [hk]

/-- The plucking loop is a filter. -/
theorem pluck_eq (counts : GoMap String Nat) (n : Nat) :
    pluck counts n = (counts.filter (fun kc => decide (kc.2 = n))).map Prod.fst := by
  unfold pluck
  suffices h : ∀ (out : List String),
      counts.foldl (fun out kc => if kc.2 = n then out ++ [kc.1] else out) out =
        out ++ (counts.filter (fun kc => decide (kc.2 = n))).map Prod.fst by
    simpa using h []
  induction counts with
  | nil => simp
  | cons e rest ih =>
    intro out
    rw [List.foldl_cons, ih]
    by_cases he : e.2 = n <;> simp [he, List.filter_cons]

theorem get?_of_mem {κ ν : Type} [DecidableEq κ] {m : GoMap κ ν} (h : m.WF)
    {k : κ} {v : ν} (hm : (k, v) ∈ m) : m.get? k = some v := by
  induction m with
  | nil => simp at hm
  | cons e rest ih =>
    obtain ⟨k₀, v₀⟩ := e
    simp only [GoMap.WF, GoMap.keys, List.map_cons, List.nodup_cons] at h
    rcases List.mem_cons.1 hm with heq | hin
    · cases heq; simp [GoMap.get?]
    · have hne : k₀ ≠ k := by
        rintro rfl
        exact h.1 (List.mem_map.2 ⟨(k₀, v), hin, rfl⟩)
      simp only [GoMap.get?, hne, if_false]
      exact ih h.2 hin

theorem mem_pluck {counts : GoMap String Nat} (h : counts.WF) (n : Nat) (k : String) :
    k ∈ pluck counts n ↔ counts.get? k = some n := by
  rw [pluck_eq]
  constructor
  · intro hk
    obtain ⟨e, he, rfl⟩ := List.mem_map.1 hk
    obtain ⟨hin, hv⟩ := List.mem_filter.1 he
    have hv' : e.2 = n := by simpa using hv
    subst hv'
    exact get?_of_mem h hin
  · intro hk
    exact List.mem_map.2 ⟨(k, n), List.mem_filter.2 ⟨GoMap.mem_of_get? hk, by simp⟩, rfl⟩

theorem nodup_pluck {counts : GoMap String Nat} (h : counts.WF) (n : Nat) :
    (pluck counts n).Nodup := by
  rw [pluck_eq]
  exact List.Nodup.sublist (List.Sublist.map _ (List.filter_sublist _)) h

/-- The keys plucked after counting, for a non-empty query, are those held by
the bucket of every queried tag. -/
theorem mem_pluck_countKeys {m : GoMap String StrSet} (h : SetMapWF m)
    {query : List String} (hq : query ≠ []) (k : String) :
    k ∈ pluck (countKeys m query []) query.length ↔
      ∀ t ∈ query, k ∈ (bucket m t).keys := by
  have hWF : (countKeys m query []).WF :=
    WF_countKeys m query (by simp [GoMap.WF, GoMap.keys])
  have hcnt := getD_countKeys m query [] k
  rw [sum_count_eq_countP h] at hcnt
  simp only [GoMap.get?, Option.getD_none, Nat.zero_add] at hcnt
  have hlen : query.length ≠ 0 := by simpa using hq
  rw [mem_pluck hWF]
  constructor
  · intro hk
    rw [hk, Option.getD_some] at hcnt
    have := List.countP_eq_length.1 hcnt.symm
    simpa using this
  · intro hall
    have hc : query.countP (fun t => decide (k ∈ (bucket m t).keys)) = query.length :=
      List.countP_eq_length.2 (by simpa using hall)
    rw [hc] at hcnt
    cases hg : (countKeys m query []).get? k with
    | none => rw [hg] at hcnt; simp at hcnt; exact absurd hcnt.symm hlen
    | some v => rw [hg] at hcnt; simpa using hcnt

/-- The empty query plucks nothing. -/
theorem pluck_countKeys_nil (m : GoMap String StrSet) :
    pluck (countKeys m [] []) 0 = [] := by
  simp [countKeys, pluck]

/-! ## Go maps of buckets stay Go maps -/

theorem SetMapWF_nil : SetMapWF [] := by
  simp [SetMapWF, GoMap.WF, GoMap.keys]

theorem SetMapWF_set {m : GoMap String StrSet} (h : SetMapWF m) (k : String)
    {b : StrSet} (hb : b.WF) : SetMapWF (m.set k b) := by
  refine ⟨GoMap.WF_set h.1 k b, ?_⟩
  intro e he
  rcases GoMap.mem_set he with rfl | hin
  · exact hb
  · exact h.2 e hin

theorem SetMapWF_ensure {m : GoMap String StrSet} (h : SetMapWF m) (k : String) :
    SetMapWF (m.set k []) :=
  SetMapWF_set h k (by simp [GoMap.WF, GoMap.keys])

theorem SetMapWF_insert {m : GoMap String StrSet} (h : SetMapWF m) (k x : String) :
    SetMapWF (m.set k ((bucket m k).set x true)) :=
  SetMapWF_set h k (GoMap.WF_set (bucket_WF h k) x true)

theorem foldl_append_singleton (ks acc : List String) :
    ks.foldl (fun metrics metric => metrics ++ [metric]) acc = acc ++ ks := by
  induction ks generalizing acc with
  | nil => simp
  | cons k ks ih => rw [List.foldl_cons, ih]; simp

section SplitLemmas

open Split

/-- The fetching loop concatenates the buckets of the join keys it is given. -/
theorem split_fetchMetrics_eq (i : Index) (joinKeys : List String) :
    fetchMetrics i joinKeys =
      joinKeys.flatMap (fun j => (bucket i.joinToMetric j).keys) := by
  unfold fetchMetrics
  suffices h : ∀ (acc : List String),
      joinKeys.foldl
          (fun metrics joinKey =>
            (bucket i.joinToMetric joinKey).keys.foldl
              (fun metrics metric => metrics ++ [metric]) metrics) acc =
        acc ++ joinKeys.flatMap (fun j => (bucket i.joinToMetric j).keys) by
    simpa using h []
  induction joinKeys with
  | nil => simp
  | cons j js ih =>
    intro acc
    rw [List.foldl_cons, ih, foldl_append_singleton]
    simp

theorem split_addMetric_of_some {join metric : String} {i : Index} {v : Bool}
    (hg : (bucket i.joinToMetric join).get? metric = some v) :
    addMetric join i metric = i := by
  simp [addMetric, hg]

theorem split_addMetric_of_none {join metric : String} {i : Index}
    (hg : (bucket i.joinToMetric join).get? metric = none) :
    addMetric join i metric =
      { i with
        metricCount := i.metricCount + 1
        joinToMetric :=
          i.joinToMetric.set join ((bucket i.joinToMetric join).set metric true) } := by
  simp [addMetric, hg]

theorem split_addTag_of_some {join tag : String} {i : Index} {v : Bool}
    (hg : (bucket i.tagToJoin tag).get? join = some v) :
    addTag join i tag = i := by
  have hb : i.tagToJoin.get? tag ≠ none := by
    intro hn
    simp [bucket, hn, GoMap.get?] at hg
  cases hs : i.tagToJoin.get? tag with
  | none => exact absurd hs hb
  | some b => simp [addTag, hs, hg]

theorem split_addTag_of_none {join tag : String} {i : Index}
    (hg : (bucket i.tagToJoin tag).get? join = none) :
    (addTag join i tag).tagCount = i.tagCount + 1 ∧
    (addTag join i tag).joinKey = i.joinKey ∧
    (addTag join i tag).joinToMetric = i.joinToMetric ∧
    (addTag join i tag).metricCount = i.metricCount ∧
    ∃ m', (addTag join i tag).tagToJoin = m'.set tag ((bucket i.tagToJoin tag).set join true) ∧
      (m' = i.tagToJoin ∨ (m' = i.tagToJoin.set tag [] ∧ i.tagToJoin.get? tag = none)) := by
  cases hs : i.tagToJoin.get? tag with
  | none =>
    have hb : bucket i.tagToJoin tag = [] := by simp [bucket, hs]
    rw [hb]
    refine ⟨?_, ?_, ?_, ?_, i.tagToJoin.set tag [], ?_, Or.inr ⟨rfl, rfl⟩⟩ <;>
      simp [addTag, hs, bucket_set_self, GoMap.get?]
  | some b =>
    have hb : bucket i.tagToJoin tag = b := by simp [bucket, hs]
    rw [hb] at hg
    refine ⟨?_, ?_, ?_, ?_, i.tagToJoin, ?_, Or.inl rfl⟩ <;>
      simp [addTag, hs, hg, hb]

theorem split_addMetric_WF (join : String) {i : Index} (h : i.WF) (metric : String) :
    (addMetric join i metric).WF := by
  cases hg : (bucket i.joinToMetric join).get? metric with
  | some _ => rw [split_addMetric_of_some hg]; exact h
  | none => rw [split_addMetric_of_none hg]; exact ⟨h.1, SetMapWF_insert h.2 join metric⟩

theorem split_addTag_WF (join : String) {i : Index} (h : i.WF) (tag : String) :
    (addTag join i tag).WF := by
  cases hg : (bucket i.tagToJoin tag).get? join with
  | some _ => rw [split_addTag_of_some hg]; exact h
  | none =>
    obtain ⟨-, -, hjm, -, m', hm', hcase⟩ := split_addTag_of_none hg
    refine ⟨?_, by rw [hjm]; exact h.2⟩
    rw [hm']
    rcases hcase with rfl | ⟨rfl, -⟩
    · exact SetMapWF_insert h.1 tag join
    · exact SetMapWF_set (SetMapWF_ensure h.1 tag) tag
        (GoMap.WF_set (bucket_WF h.1 tag) join true)

theorem split_foldl_addMetric_WF (join : String) (metrics : List String) {i : Index}
    (h : i.WF) : (metrics.foldl (addMetric join) i).WF := by
  induction metrics generalizing i with
  | nil => exact h
  | cons m ms ih => exact ih (split_addMetric_WF join h m)

theorem split_foldl_addTag_WF (join : String) (tags : List String) {i : Index}
    (h : i.WF) : (tags.foldl (addTag join) i).WF := by
  induction tags generalizing i with
  | nil => exact h
  | cons t ts ih => exact ih (split_addTag_WF join h t)

theorem split_AddMetrics_WF {i : Index} (h : i.WF) (join : String) (metrics : List String) :
    (AddMetrics i join metrics).1.WF := by
  unfold AddMetrics
  by_cases hm : metrics.length = 0
  · simpa [hm] using h
  · simp only [hm, if_false]
    apply split_foldl_addMetric_WF
    cases i.joinToMetric.get? join with
    | some _ => exact h
    | none => exact ⟨h.1, SetMapWF_ensure h.2 join⟩

theorem split_AddTags_WF {i : Index} (h : i.WF) (join : String) (tags : List String) :
    (AddTags i join tags).1.WF := by
  unfold AddTags
  by_cases hm : tags.length = 0
  · simpa [hm] using h
  · simp only [hm, if_false]
    exact split_foldl_addTag_WF join tags h

/-- Every reachable state is a state of Go maps. -/
theorem split_reachable_WF {i : Index} (h : Reachable i) : i.WF := by
  induction h with
  | newIndex joinKey => exact ⟨SetMapWF_nil, SetMapWF_nil⟩
  | addMetrics join metrics _ ih => exact split_AddMetrics_WF ih join metrics
  | addTags join tags _ ih => exact split_AddTags_WF ih join tags

/-- Membership in the result of `Query`, for a non-empty query. -/
theorem split_mem_Query {i : Index} (h : i.WF) {query : List String} (hq : query ≠ [])
    (m : String) :
    m ∈ (Query i query).1 ↔
      ∃ j, (∀ t ∈ query, j ∈ (bucket i.tagToJoin t).keys) ∧
        m ∈ (bucket i.joinToMetric j).keys := by
  simp only [Query, split_fetchMetrics_eq, List.mem_flatMap, mem_pluck_countKeys h.1 hq]

end SplitLemmas

section FullLemmas

open Full

theorem full_addMetric_of_some {tag metric : String} {i : Index} {v : Bool}
    (hg : (bucket i.index tag).get? metric = some v) :
    addMetric tag i metric = i := by
  simp [addMetric, hg]

theorem full_addMetric_of_none {tag metric : String} {i : Index}
    (hg : (bucket i.index tag).get? metric = none) :
    addMetric tag i metric =
      { i with
        metricSize := i.metricSize + 1
        index := i.index.set tag ((bucket i.index tag).set metric true) } := by
  simp [addMetric, hg]

theorem full_addMetric_WF (tag : String) {i : Index} (h : i.WF) (metric : String) :
    (addMetric tag i metric).WF := by
  cases hg : (bucket i.index tag).get? metric with
  | some _ => rw [full_addMetric_of_some hg]; exact h
  | none => rw [full_addMetric_of_none hg]; exact SetMapWF_insert h tag metric

theorem full_foldl_addMetric_WF (tag : String) (metrics : List String) {i : Index}
    (h : i.WF) : (metrics.foldl (addMetric tag) i).WF := by
  induction metrics generalizing i with
  | nil => exact h
  | cons m ms ih => exact ih (full_addMetric_WF tag h m)

theorem full_addTag_WF (metrics : List String) {i : Index} (h : i.WF) (tag : String) :
    (addTag metrics i tag).WF := by
  unfold addTag
  apply full_foldl_addMetric_WF
  cases i.index.get? tag with
  | some _ => exact h
  | none => exact SetMapWF_ensure h tag

theorem full_foldl_addTag_WF (metrics tags : List String) {i : Index} (h : i.WF) :
    (tags.foldl (addTag metrics) i).WF := by
  induction tags generalizing i with
  | nil => exact h
  | cons t ts ih => exact ih (full_addTag_WF metrics h t)

theorem full_Add_WF {i : Index} (h : i.WF) (tags metrics : List String) :
    (Full.Add i tags metrics).1.WF := by
  unfold Full.Add
  by_cases hm : metrics.length = 0
  · simpa [hm] using h
  · by_cases ht : tags.length = 0
    · simpa [hm, ht] using h
    · simp only [hm, ht, if_false]
      exact full_foldl_addTag_WF metrics tags h

/-- Every reachable state is a state of Go maps. -/
theorem full_reachable_WF {i : Index} (h : Reachable i) : i.WF := by
  induction h with
  | newIndex => exact SetMapWF_nil
  | add tags metrics _ ih => exact full_Add_WF ih tags metrics

end FullLemmas

/-! ## C1: what the split `Query` returns -/

section SplitQuery

open Split

/-- C1, as stated, fails on the empty query: the index that holds the metric
`server.hostname-1234` under the join key `hostname-1234` is reachable, every
join key is (vacuously) in the bucket of every tag of `[]`, yet `Query([])`
returns nothing. -/
theorem split_query_empty_counterexample :
    Reachable metricsOnlyIndex ∧
    (∃ j, (∀ t ∈ ([] : List String), j ∈ (bucket metricsOnlyIndex.tagToJoin t).keys) ∧
      "server.hostname-1234" ∈ (bucket metricsOnlyIndex.joinToMetric j).keys) ∧
    "server.hostname-1234" ∉ (Query metricsOnlyIndex []).1 := by
  refine ⟨Reachable.addMetrics _ _ (Reachable.newIndex _), ⟨"hostname-1234", ?_, ?_⟩, ?_⟩
  · intro t ht; cases ht
  · decide
  · decide

/-- C1 (amended): in every state reached from `NewIndex` by `AddMetrics` and
`AddTags`, for every non-empty list of tags `T`, a metric `m` occurs in the
result of `Query(T)` if and only if some join key `j` is in `tagToJoin[t]` for
every `t` of `T` and `m` is in `joinToMetric[j]`; and `Query` returns no error. -/
theorem split_query_exact (i : Index) (h : Reachable i) (T : List String)
    (hT : T ≠ []) (m : String) :
    (m ∈ (Query i T).1 ↔
      ∃ j, (∀ t ∈ T, j ∈ (bucket i.tagToJoin t).keys) ∧
        m ∈ (bucket i.joinToMetric j).keys) ∧
    (Query i T).2 = none :=
  ⟨split_mem_Query (split_reachable_WF h) hT m, rfl⟩

/-- C1 at the index of `TestQuery`, queried for `server-state:live`. -/
theorem split_query_exact_witness :
    Reachable testIndex ∧ ["server-state:live"] ≠ [] ∧
    (("server.hostname-1234" ∈ (Query testIndex ["server-state:live"]).1 ↔
      ∃ j, (∀ t ∈ ["server-state:live"], j ∈ (bucket testIndex.tagToJoin t).keys) ∧
        "server.hostname-1234" ∈ (bucket testIndex.joinToMetric j).keys) ∧
    (Query testIndex ["server-state:live"]).2 = none) :=
  have hr : Reachable testIndex :=
    Reachable.addTags _ _ (Reachable.addMetrics _ _ (Reachable.newIndex _))
  ⟨hr, by decide,
    split_query_exact testIndex hr ["server-state:live"] (by decide) "server.hostname-1234"⟩

end SplitQuery

/-! ## C2: what the full `Query` returns -/

section FullQuery

open Full

/-- C2: in every state of the full index and for every non-empty list of tags
`T`, `Query(T)` returns without error a list with no duplicates whose elements
are exactly the metrics that are in `index[t]` for every `t` of `T`. -/
theorem full_query_exact (i : Index) (h : i.WF) (T : List String) (hT : T ≠ []) :
    (Query i T).1.Nodup ∧
    (∀ m, m ∈ (Query i T).1 ↔ ∀ t ∈ T, m ∈ (bucket i.index t).keys) ∧
    (Query i T).2 = none :=
  ⟨nodup_pluck (WF_countKeys i.index T (by simp [GoMap.WF, GoMap.keys])) T.length,
    fun m => mem_pluck_countKeys h hT m, rfl⟩

/-- C2 on the scenario of the specification: after the two `Add` calls,
`Query([custom-fav:alice])` is `{m1, m2, m3}` and
`Query([custom-fav:alice, custom-team:red])` is `{m2, m3}`. -/
theorem full_query_exact_witness :
    customIndex.WF ∧ ["custom-fav:alice", "custom-team:red"] ≠ [] ∧
    ((Query customIndex ["custom-fav:alice", "custom-team:red"]).1.Nodup ∧
      (∀ m, m ∈ (Query customIndex ["custom-fav:alice", "custom-team:red"]).1 ↔
        ∀ t ∈ ["custom-fav:alice", "custom-team:red"],
          m ∈ (bucket customIndex.index t).keys) ∧
      (Query customIndex ["custom-fav:alice", "custom-team:red"]).2 = none) ∧
    (Query customIndex ["custom-fav:alice"]).1.Perm ["m1", "m2", "m3"] ∧
    (Query customIndex ["custom-fav:alice", "custom-team:red"]).1.Perm ["m2", "m3"] :=
  ⟨by decide, by decide,
    full_query_exact customIndex (by decide) ["custom-fav:alice", "custom-team:red"]
      (by decide),
    by decide, by decide⟩

end FullQuery

/-! ## Counting the new pairs of an `Add*` call -/

/-- The elements of `x :: xs` that fail `P`, counted once each: `x` if it fails
`P`, and then the elements of `xs` that fail `P` and are not `x`. -/
theorem card_filter_not_cons (P Q : String → Prop) [DecidablePred P] [DecidablePred Q]
    (x : String) (xs : List String) (hQ : ∀ y, Q y ↔ (y = x ∨ P y)) :
    ((x :: xs).toFinset.filter (fun y => ¬ P y)).card =
      (if P x then 0 else 1) + (xs.toFinset.filter (fun y => ¬ Q y)).card := by
  have hfilter : xs.toFinset.filter (fun y => ¬ Q y) =
      (xs.toFinset.filter (fun y => ¬ P y)).erase x := by
    ext y
    simp only [Finset.mem_filter, Finset.mem_erase, hQ y]
    tauto
  rw [hfilter, List.toFinset_cons, Finset.filter_insert]
  by_cases hx : P x
  · have hnot : x ∉ xs.toFinset.filter (fun y => ¬ P y) := by
      simp [Finset.mem_filter, hx]
    simp [hx, Finset.erase_eq_of_not_mem hnot]
  · simp only [hx, not_false_eq_true, if_true, if_false]
    by_cases hmem : x ∈ xs.toFinset.filter (fun y => ¬ P y)
    · rw [Finset.insert_eq_of_mem hmem, Finset.card_erase_of_mem hmem]
      have := Finset.card_pos.2 ⟨x, hmem⟩
      omega
    · rw [Finset.card_insert_of_not_mem hmem, Finset.erase_eq_of_not_mem hmem]
      omega

section SplitPost

open Split

/-! ### One pass of the loop of `AddMetrics` -/

theorem split_addMetric_frame (join : String) (i : Index) (x : String) :
    (addMetric join i x).joinKey = i.joinKey ∧
    (addMetric join i x).tagToJoin = i.tagToJoin ∧
    (addMetric join i x).tagCount = i.tagCount := by
  cases hg : (bucket i.joinToMetric join).get? x with
  | some _ => rw [split_addMetric_of_some hg]; exact ⟨rfl, rfl, rfl⟩
  | none => rw [split_addMetric_of_none hg]; exact ⟨rfl, rfl, rfl⟩

theorem split_addMetric_bucket (join : String) (i : Index) (x y : String) :
    y ∈ (bucket (addMetric join i x).joinToMetric join).keys ↔
      y = x ∨ y ∈ (bucket i.joinToMetric join).keys := by
  cases hg : (bucket i.joinToMetric join).get? x with
  | some v =>
    rw [split_addMetric_of_some hg]
    have hx : x ∈ (bucket i.joinToMetric join).keys :=
      (GoMap.get?_isSome_iff _ _).1 (by simp [hg])
    constructor
    · exact fun h => Or.inr h
    · rintro (rfl | h)
      · exact hx
      · exact h
  | none =>
    rw [split_addMetric_of_none hg]
    simp only [bucket_set_self, GoMap.mem_keys_set]

theorem split_addMetric_other (join : String) (i : Index) (x : String) {k : String}
    (hk : join ≠ k) :
    (addMetric join i x).joinToMetric.get? k = i.joinToMetric.get? k := by
  cases hg : (bucket i.joinToMetric join).get? x with
  | some v => rw [split_addMetric_of_some hg]
  | none =>
    rw [split_addMetric_of_none hg]
    exact GoMap.get?_set_ne _ _ hk

theorem split_addMetric_count (join : String) (i : Index) (x : String) :
    (addMetric join i x).metricCount =
      i.metricCount + (if x ∈ (bucket i.joinToMetric join).keys then 0 else 1) := by
  cases hg : (bucket i.joinToMetric join).get? x with
  | some v =>
    rw [split_addMetric_of_some hg]
    have hx : x ∈ (bucket i.joinToMetric join).keys :=
      (GoMap.get?_isSome_iff _ _).1 (by simp [hg])
    simp [hx]
  | none =>
    rw [split_addMetric_of_none hg]
    have hx : x ∉ (bucket i.joinToMetric join).keys := (GoMap.get?_eq_none_iff _ _).1 hg
    simp [hx]

/-! ### The whole loop of `AddMetrics` -/

theorem split_foldl_addMetric_frame (join : String) (ms : List String) (i : Index) :
    (ms.foldl (addMetric join) i).joinKey = i.joinKey ∧
    (ms.foldl (addMetric join) i).tagToJoin = i.tagToJoin ∧
    (ms.foldl (addMetric join) i).tagCount = i.tagCount := by
  induction ms generalizing i with
  | nil => exact ⟨rfl, rfl, rfl⟩
  | cons x xs ih =>
    obtain ⟨h1, h2, h3⟩ := ih (addMetric join i x)
    obtain ⟨g1, g2, g3⟩ := split_addMetric_frame join i x
    exact ⟨h1.trans g1, h2.trans g2, h3.trans g3⟩

theorem split_foldl_addMetric_bucket (join : String) (ms : List String) (i : Index)
    (y : String) :
    y ∈ (bucket (ms.foldl (addMetric join) i).joinToMetric join).keys ↔
      y ∈ ms ∨ y ∈ (bucket i.joinToMetric join).keys := by
  induction ms generalizing i with
  | nil => simp
  | cons x xs ih =>
    rw [List.foldl_cons, ih, split_addMetric_bucket, List.mem_cons]
    tauto

theorem split_foldl_addMetric_other (join : String) (ms : List String) (i : Index)
    {k : String} (hk : join ≠ k) :
    (ms.foldl (addMetric join) i).joinToMetric.get? k = i.joinToMetric.get? k := by
  induction ms generalizing i with
  | nil => rfl
  | cons x xs ih => rw [List.foldl_cons, ih, split_addMetric_other join i x hk]

theorem split_foldl_addMetric_count (join : String) (ms : List String) (i : Index) :
    (ms.foldl (addMetric join) i).metricCount =
      i.metricCount +
        (ms.toFinset.filter (fun x => x ∉ (bucket i.joinToMetric join).keys)).card := by
  induction ms generalizing i with
  | nil => simp
  | cons x xs ih =>
    rw [List.foldl_cons, ih, split_addMetric_count,
      card_filter_not_cons (fun y => y ∈ (bucket i.joinToMetric join).keys)
        (fun y => y ∈ (bucket (addMetric join i x).joinToMetric join).keys) x xs
        (fun y => split_addMetric_bucket join i x y)]
    omega

end SplitPost

section SplitAddMetrics

open Split

theorem get?_ne_none_of_mem_bucket {m : GoMap String StrSet} {k x : String}
    (h : x ∈ (bucket m k).keys) : ∃ b, m.get? k = some b := by
  cases hg : m.get? k with
  | none => simp [bucket, hg, GoMap.keys] at h
  | some b => exact ⟨b, rfl⟩

/-- A successful `AddMetrics` is its loop, run from a state that differs from
the receiver by at most an empty bucket for `join`. -/
theorem split_AddMetrics_eq (i : Index) (join : String) {ms : List String}
    (hms : ms ≠ []) :
    ∃ i1, AddMetrics i join ms = (ms.foldl (addMetric join) i1, none) ∧
      bucket i1.joinToMetric join = bucket i.joinToMetric join ∧
      (∀ k, join ≠ k → i1.joinToMetric.get? k = i.joinToMetric.get? k) ∧
      i1.metricCount = i.metricCount ∧
      i1.joinKey = i.joinKey ∧ i1.tagToJoin = i.tagToJoin ∧ i1.tagCount = i.tagCount ∧
      ((∃ b, i.joinToMetric.get? join = some b) → i1 = i) := by
  have hlen : ¬ ms.length = 0 := by simpa using hms
  cases hs : i.joinToMetric.get? join with
  | some b =>
    refine ⟨i, ?_, rfl, fun _ _ => rfl, rfl, rfl, rfl, rfl, fun _ => rfl⟩
    simp [AddMetrics, hlen, hs]
  | none =>
    refine ⟨{ i with joinToMetric := i.joinToMetric.set join [] }, ?_, ?_, ?_,
      rfl, rfl, rfl, rfl, ?_⟩
    · simp [AddMetrics, hlen, hs]
    · simp [bucket, GoMap.get?_set_self, hs]
    · intro k hk; exact GoMap.get?_set_ne _ _ hk
    · rintro ⟨b, hb⟩; cases hb

/-- The loop of `AddMetrics` writes nothing when every metric is already in
the bucket. -/
theorem split_foldl_addMetric_of_mem (join : String) (ms : List String) (i : Index)
    (h : ∀ x ∈ ms, x ∈ (bucket i.joinToMetric join).keys) :
    ms.foldl (addMetric join) i = i := by
  induction ms with
  | nil => rfl
  | cons x xs ih =>
    have hx := (GoMap.get?_isSome_iff _ _).2 (h x (List.mem_cons_self _ _))
    obtain ⟨v, hv⟩ := Option.isSome_iff_exists.1 hx
    rw [List.foldl_cons, split_addMetric_of_some hv]
    exact ih (fun y hy => h y (List.mem_cons_of_mem _ hy))

/-- C10: for a non-empty `ms`, `AddMetrics(j, ms)` returns no error and leaves
`joinToMetric[j]` equal, as a set, to its previous value united with the
elements of `ms`; `joinToMetric[k]` is unchanged for every other join key `k`;
and `metricCount` has grown by the number of distinct metrics of `ms` that were
not in `joinToMetric[j]` before. -/
theorem split_AddMetrics_post (i : Index) (j : String) (ms : List String)
    (hms : ms ≠ []) :
    (AddMetrics i j ms).2 = none ∧
    (∀ m, m ∈ (bucket (AddMetrics i j ms).1.joinToMetric j).keys ↔
      m ∈ (bucket i.joinToMetric j).keys ∨ m ∈ ms) ∧
    (∀ k, k ≠ j → (AddMetrics i j ms).1.joinToMetric.get? k = i.joinToMetric.get? k) ∧
    (AddMetrics i j ms).1.metricCount =
      i.metricCount +
        (ms.toFinset.filter (fun m => m ∉ (bucket i.joinToMetric j).keys)).card := by
  obtain ⟨i1, heq, hb, hother, hcount, -⟩ := split_AddMetrics_eq i j hms
  rw [heq]
  refine ⟨rfl, ?_, ?_, ?_⟩
  · intro m
    simp only [split_foldl_addMetric_bucket, hb]
    tauto
  · intro k hk
    simp only [split_foldl_addMetric_other j ms i1 (fun h => hk h.symm)]
    exact hother k (fun h => hk h.symm)
  · simp only [split_foldl_addMetric_count, hb, hcount]

/-- C10 on the index of `TestQuery`: adding one known and one new metric. -/
theorem split_AddMetrics_post_witness :
    ["server.hostname-1234", "server.hostname-1234.cpu"] ≠ [] ∧
    (AddMetrics testIndex "hostname-1234"
      ["server.hostname-1234", "server.hostname-1234.cpu"]).1.metricCount = 2 ∧
    ((AddMetrics testIndex "hostname-1234"
        ["server.hostname-1234", "server.hostname-1234.cpu"]).2 = none ∧
      (∀ m, m ∈ (bucket (AddMetrics testIndex "hostname-1234"
          ["server.hostname-1234", "server.hostname-1234.cpu"]).1.joinToMetric
            "hostname-1234").keys ↔
        m ∈ (bucket testIndex.joinToMetric "hostname-1234").keys ∨
          m ∈ ["server.hostname-1234", "server.hostname-1234.cpu"]) ∧
      (∀ k, k ≠ "hostname-1234" →
        (AddMetrics testIndex "hostname-1234"
          ["server.hostname-1234", "server.hostname-1234.cpu"]).1.joinToMetric.get? k =
          testIndex.joinToMetric.get? k) ∧
      (AddMetrics testIndex "hostname-1234"
        ["server.hostname-1234", "server.hostname-1234.cpu"]).1.metricCount =
        testIndex.metricCount +
          (["server.hostname-1234", "server.hostname-1234.cpu"].toFinset.filter
            (fun m => m ∉ (bucket testIndex.joinToMetric "hostname-1234").keys)).card) :=
  ⟨by decide, by decide,
    split_AddMetrics_post testIndex "hostname-1234"
      ["server.hostname-1234", "server.hostname-1234.cpu"] (by decide)⟩

end SplitAddMetrics

section SplitAddTags

open Split

/-! ### One pass of the loop of `AddTags` -/

theorem split_addTag_frame (join : String) (i : Index) (t : String) :
    (addTag join i t).joinKey = i.joinKey ∧
    (addTag join i t).joinToMetric = i.joinToMetric ∧
    (addTag join i t).metricCount = i.metricCount := by
  cases hg : (bucket i.tagToJoin t).get? join with
  | some _ => rw [split_addTag_of_some hg]; exact ⟨rfl, rfl, rfl⟩
  | none =>
    obtain ⟨-, h1, h2, h3, -⟩ := split_addTag_of_none hg
    exact ⟨h1, h2, h3⟩

theorem split_addTag_other (join : String) (i : Index) (t : String) {u : String}
    (hu : t ≠ u) : (addTag join i t).tagToJoin.get? u = i.tagToJoin.get? u := by
  cases hg : (bucket i.tagToJoin t).get? join with
  | some _ => rw [split_addTag_of_some hg]
  | none =>
    obtain ⟨-, -, -, -, m', hm', hcase⟩ := split_addTag_of_none hg
    rw [hm', GoMap.get?_set_ne _ _ hu]
    rcases hcase with rfl | ⟨rfl, -⟩
    · rfl
    · exact GoMap.get?_set_ne _ _ hu

theorem split_addTag_bucket (join : String) (i : Index) (t u k : String) :
    k ∈ (bucket (addTag join i t).tagToJoin u).keys ↔
      (u = t ∧ k = join) ∨ k ∈ (bucket i.tagToJoin u).keys := by
  by_cases hu : t = u
  · subst hu
    cases hg : (bucket i.tagToJoin t).get? join with
    | some v =>
      rw [split_addTag_of_some hg]
      have hj : join ∈ (bucket i.tagToJoin t).keys :=
        (GoMap.get?_isSome_iff _ _).1 (by simp [hg])
      constructor
      · exact fun h => Or.inr h
      · rintro (⟨-, rfl⟩ | h)
        · exact hj
        · exact h
    | none =>
      obtain ⟨-, -, -, -, m', hm', -⟩ := split_addTag_of_none hg
      rw [hm', bucket_set_self, GoMap.mem_keys_set]
      tauto
  · have hb : bucket (addTag join i t).tagToJoin u = bucket i.tagToJoin u := by
      simp only [bucket, split_addTag_other join i t hu]
    rw [hb]
    constructor
    · exact fun h => Or.inr h
    · rintro (⟨rfl, -⟩ | h)
      · exact absurd rfl hu
      · exact h

theorem split_addTag_count (join : String) (i : Index) (t : String) :
    (addTag join i t).tagCount =
      i.tagCount + (if join ∈ (bucket i.tagToJoin t).keys then 0 else 1) := by
  cases hg : (bucket i.tagToJoin t).get? join with
  | some v =>
    rw [split_addTag_of_some hg]
    have hj : join ∈ (bucket i.tagToJoin t).keys :=
      (GoMap.get?_isSome_iff _ _).1 (by simp [hg])
    simp [hj]
  | none =>
    obtain ⟨h, -⟩ := split_addTag_of_none hg
    have hj : join ∉ (bucket i.tagToJoin t).keys := (GoMap.get?_eq_none_iff _ _).1 hg
    simp [h, hj]

/-! ### The whole loop of `AddTags` -/

theorem split_foldl_addTag_frame (join : String) (ts : List String) (i : Index) :
    (ts.foldl (addTag join) i).joinKey = i.joinKey ∧
    (ts.foldl (addTag join) i).joinToMetric = i.joinToMetric ∧
    (ts.foldl (addTag join) i).metricCount = i.metricCount := by
  induction ts generalizing i with
  | nil => exact ⟨rfl, rfl, rfl⟩
  | cons x xs ih =>
    obtain ⟨h1, h2, h3⟩ := ih (addTag join i x)
    obtain ⟨g1, g2, g3⟩ := split_addTag_frame join i x
    exact ⟨h1.trans g1, h2.trans g2, h3.trans g3⟩

theorem split_foldl_addTag_bucket (join : String) (ts : List String) (i : Index)
    (u k : String) :
    k ∈ (bucket (ts.foldl (addTag join) i).tagToJoin u).keys ↔
      (u ∈ ts ∧ k = join) ∨ k ∈ (bucket i.tagToJoin u).keys := by
  induction ts generalizing i with
  | nil => simp
  | cons x xs ih =>
    rw [List.foldl_cons, ih, split_addTag_bucket, List.mem_cons]
    tauto

theorem split_foldl_addTag_other (join : String) (ts : List String) (i : Index)
    {u : String} (hu : u ∉ ts) :
    (ts.foldl (addTag join) i).tagToJoin.get? u = i.tagToJoin.get? u := by
  induction ts generalizing i with
  | nil => rfl
  | cons x xs ih =>
    rw [List.mem_cons, not_or] at hu
    rw [List.foldl_cons, ih _ hu.2, split_addTag_other join i x (fun h => hu.1 h.symm)]

theorem split_foldl_addTag_count (join : String) (ts : List String) (i : Index) :
    (ts.foldl (addTag join) i).tagCount =
      i.tagCount +
        (ts.toFinset.filter (fun t => join ∉ (bucket i.tagToJoin t).keys)).card := by
  induction ts generalizing i with
  | nil => simp
  | cons x xs ih =>
    rw [List.foldl_cons, ih, split_addTag_count,
      card_filter_not_cons (fun u => join ∈ (bucket i.tagToJoin u).keys)
        (fun u => join ∈ (bucket (addTag join i x).tagToJoin u).keys) x xs
        (fun u => by simp only [split_addTag_bucket]; tauto)]
    omega

theorem split_AddTags_eq (i : Index) (join : String) {ts : List String} (hts : ts ≠ []) :
    AddTags i join ts = (ts.foldl (addTag join) i, none) := by
  have hlen : ¬ ts.length = 0 := by simpa using hts
  simp [AddTags, hlen]

/-- C9: for a non-empty `ts`, `AddTags(j, ts)` returns no error and leaves
`tagToJoin[t]` equal, as a set, to its previous value with `j` added, for every
`t` occurring in `ts`; `tagToJoin[u]` is unchanged for every tag `u` not in
`ts`; and `tagCount` has grown by the number of distinct tags `t` of `ts` for
which `j` was not in `tagToJoin[t]` before. -/
theorem split_AddTags_post (i : Index) (j : String) (ts : List String) (hts : ts ≠ []) :
    (AddTags i j ts).2 = none ∧
    (∀ t ∈ ts, ∀ k, k ∈ (bucket (AddTags i j ts).1.tagToJoin t).keys ↔
      k ∈ (bucket i.tagToJoin t).keys ∨ k = j) ∧
    (∀ u, u ∉ ts → (AddTags i j ts).1.tagToJoin.get? u = i.tagToJoin.get? u) ∧
    (AddTags i j ts).1.tagCount =
      i.tagCount +
        (ts.toFinset.filter (fun t => j ∉ (bucket i.tagToJoin t).keys)).card := by
  rw [split_AddTags_eq i j hts]
  refine ⟨rfl, ?_, ?_, ?_⟩
  · intro t ht k
    simp only [split_foldl_addTag_bucket, ht, true_and]
    tauto
  · intro u hu
    exact split_foldl_addTag_other j ts i hu
  · exact split_foldl_addTag_count j ts i

/-- C9 on the index of `TestQuery`: a tag the host has, repeated, and a new
one. -/
theorem split_AddTags_post_witness :
    ["server-dc:lhr", "server-rack:7", "server-rack:7"] ≠ [] ∧
    (AddTags testIndex "hostname-1234"
      ["server-dc:lhr", "server-rack:7", "server-rack:7"]).1.tagCount = 3 ∧
    ((AddTags testIndex "hostname-1234"
        ["server-dc:lhr", "server-rack:7", "server-rack:7"]).2 = none ∧
      (∀ t ∈ ["server-dc:lhr", "server-rack:7", "server-rack:7"], ∀ k,
        k ∈ (bucket (AddTags testIndex "hostname-1234"
          ["server-dc:lhr", "server-rack:7", "server-rack:7"]).1.tagToJoin t).keys ↔
        k ∈ (bucket testIndex.tagToJoin t).keys ∨ k = "hostname-1234") ∧
      (∀ u, u ∉ ["server-dc:lhr", "server-rack:7", "server-rack:7"] →
        (AddTags testIndex "hostname-1234"
          ["server-dc:lhr", "server-rack:7", "server-rack:7"]).1.tagToJoin.get? u =
          testIndex.tagToJoin.get? u) ∧
      (AddTags testIndex "hostname-1234"
        ["server-dc:lhr", "server-rack:7", "server-rack:7"]).1.tagCount =
        testIndex.tagCount +
          (["server-dc:lhr", "server-rack:7", "server-rack:7"].toFinset.filter
            (fun t => "hostname-1234" ∉ (bucket testIndex.tagToJoin t).keys)).card) :=
  ⟨by decide, by decide,
    split_AddTags_post testIndex "hostname-1234"
      ["server-dc:lhr", "server-rack:7", "server-rack:7"] (by decide)⟩

end SplitAddTags

section SplitEndToEnd

open Split

theorem eq_singleton_of_nodup {l : List String} {a : String} (hn : l.Nodup)
    (hm : ∀ x, x ∈ l ↔ x = a) : l = [a] := by
  have hp : l.Perm [a] :=
    (List.perm_ext_iff_of_nodup hn (List.nodup_singleton a)).2
      (fun x => by rw [hm x, List.mem_singleton])
  exact List.perm_singleton.1 hp

theorem bucket_nil (k : String) : bucket [] k = [] := rfl

/-- What `Query([t])` returns after `AddMetrics(j, ms)` and `AddTags(j, ts)` on
a fresh index, when `t` is one of `ts`: the bucket of `j`. -/
theorem split_query_after_adds (joinKey j : String) {ms ts : List String} {t : String}
    (hms : ms ≠ []) (hts : ts ≠ []) (ht : t ∈ ts) :
    (Query (AddTags (AddMetrics (NewIndex joinKey) j ms).1 j ts).1 [t]).1.Nodup ∧
    ∀ m, m ∈ (Query (AddTags (AddMetrics (NewIndex joinKey) j ms).1 j ts).1 [t]).1 ↔
      m ∈ ms := by
  have hr1 : Reachable (AddMetrics (NewIndex joinKey) j ms).1 :=
    Reachable.addMetrics _ _ (Reachable.newIndex _)
  have hr2 : Reachable (AddTags (AddMetrics (NewIndex joinKey) j ms).1 j ts).1 :=
    Reachable.addTags _ _ hr1
  have hWF1 := split_reachable_WF hr1
  have hWF2 := split_reachable_WF hr2
  obtain ⟨i1, heq1, hb1, -, -, -, htag1, -⟩ := split_AddMetrics_eq (NewIndex joinKey) j hms
  have htj1 : (AddMetrics (NewIndex joinKey) j ms).1.tagToJoin = [] := by
    rw [heq1]
    exact (split_foldl_addMetric_frame j ms i1).2.1.trans htag1
  have hjm2 : (AddTags (AddMetrics (NewIndex joinKey) j ms).1 j ts).1.joinToMetric =
      (AddMetrics (NewIndex joinKey) j ms).1.joinToMetric := by
    rw [split_AddTags_eq _ j hts]
    exact (split_foldl_addTag_frame j ts _).2.1
  have hkeys : ∀ k, k ∈ (bucket (AddTags (AddMetrics (NewIndex joinKey) j ms).1 j ts).1.tagToJoin
      t).keys ↔ k = j := by
    intro k
    rw [split_AddTags_eq _ j hts]
    simp only [split_foldl_addTag_bucket, htj1, bucket_nil, ht, true_and]
    simp [GoMap.keys]
  have hpl : pluck (countKeys (AddTags (AddMetrics (NewIndex joinKey) j ms).1 j ts).1.tagToJoin
      [t] []) [t].length = [j] := by
    apply eq_singleton_of_nodup
    · exact nodup_pluck (WF_countKeys _ _ (by simp [GoMap.WF, GoMap.keys])) _
    · intro k
      rw [mem_pluck_countKeys hWF2.1 (by simp)]
      simp only [List.mem_singleton, forall_eq, hkeys]
  have hres : (Query (AddTags (AddMetrics (NewIndex joinKey) j ms).1 j ts).1 [t]).1 =
      (bucket (AddMetrics (NewIndex joinKey) j ms).1.joinToMetric j).keys := by
    simp only [Query, split_fetchMetrics_eq, hpl, hjm2]
    simp
  rw [hres]
  refine ⟨bucket_WF hWF1.2 j, ?_⟩
  intro m
  rw [heq1]
  simp only [split_foldl_addMetric_bucket, hb1]
  simp [NewIndex, bucket_nil, GoMap.keys]

/-- C3: on a fresh index, for every join key `j`, non-empty metric list `ms`
and non-empty tag list `ts`, after `AddMetrics(j, ms)` and `AddTags(j, ts)`
(both without error), `Query([t])` for any `t` of `ts` returns without error a
permutation of the distinct elements of `ms`; when `ms` is the single metric
`m` the result is `[m]`. -/
theorem split_add_then_query (joinKey j : String) (ms ts : List String) (t : String)
    (hms : ms ≠ []) (hts : ts ≠ []) (ht : t ∈ ts) :
    (AddMetrics (NewIndex joinKey) j ms).2 = none ∧
    (AddTags (AddMetrics (NewIndex joinKey) j ms).1 j ts).2 = none ∧
    (Query (AddTags (AddMetrics (NewIndex joinKey) j ms).1 j ts).1 [t]).2 = none ∧
    (Query (AddTags (AddMetrics (NewIndex joinKey) j ms).1 j ts).1 [t]).1.Perm ms.dedup ∧
    (∀ m, ms = [m] →
      (Query (AddTags (AddMetrics (NewIndex joinKey) j ms).1 j ts).1 [t]).1 = [m]) := by
  obtain ⟨hn, hmem⟩ := split_query_after_adds joinKey j hms hts ht
  have hperm : (Query (AddTags (AddMetrics (NewIndex joinKey) j ms).1 j ts).1 [t]).1.Perm
      ms.dedup :=
    (List.perm_ext_iff_of_nodup hn (List.nodup_dedup ms)).2
      (fun m => by rw [hmem m, List.mem_dedup])
  refine ⟨?_, ?_, rfl, hperm, ?_⟩
  · obtain ⟨i1, heq1, -⟩ := split_AddMetrics_eq (NewIndex joinKey) j hms
    rw [heq1]
  · rw [split_AddTags_eq _ j hts]
  · intro m hm
    subst hm
    exact eq_singleton_of_nodup hn (fun x => by rw [hmem x, List.mem_singleton])

/-- C3 on `TestQuery`: the query for `server-state:live` returns the one metric
added, and the bogus query returns nothing. -/
theorem split_add_then_query_witness :
    ["server.hostname-1234"] ≠ [] ∧ ["server-state:live", "server-dc:lhr"] ≠ [] ∧
    "server-state:live" ∈ ["server-state:live", "server-dc:lhr"] ∧
    (Query testIndex ["server-state:live"]).1 = ["server.hostname-1234"] ∧
    (Query testIndex ["blorgtag"]) = ([], none) ∧
    ((AddMetrics (NewIndex "host") "hostname-1234" ["server.hostname-1234"]).2 = none ∧
    (AddTags (AddMetrics (NewIndex "host") "hostname-1234" ["server.hostname-1234"]).1
      "hostname-1234" ["server-state:live", "server-dc:lhr"]).2 = none ∧
    (Query (AddTags (AddMetrics (NewIndex "host") "hostname-1234"
      ["server.hostname-1234"]).1 "hostname-1234"
      ["server-state:live", "server-dc:lhr"]).1 ["server-state:live"]).2 = none ∧
    (Query (AddTags (AddMetrics (NewIndex "host") "hostname-1234"
      ["server.hostname-1234"]).1 "hostname-1234"
      ["server-state:live", "server-dc:lhr"]).1 ["server-state:live"]).1.Perm
        ["server.hostname-1234"].dedup ∧
    (∀ m, ["server.hostname-1234"] = [m] →
      (Query (AddTags (AddMetrics (NewIndex "host") "hostname-1234"
        ["server.hostname-1234"]).1 "hostname-1234"
        ["server-state:live", "server-dc:lhr"]).1 ["server-state:live"]).1 = [m])) :=
  ⟨by decide, by decide, by decide, by decide, by decide,
    split_add_then_query "host" "hostname-1234" ["server.hostname-1234"]
      ["server-state:live", "server-dc:lhr"] "server-state:live"
      (by decide) (by decide) (by decide)⟩

end SplitEndToEnd

section FullPost

open Full

/-- Creating an empty bucket for an absent key changes no bucket, read as
`m[k]`. -/
theorem bucket_ensure {m : GoMap String StrSet} {k : String} (h : m.get? k = none)
    (u : String) : bucket (m.set k []) u = bucket m u := by
  by_cases hu : k = u
  · subst hu; simp [bucket, GoMap.get?_set_self, h]
  · exact bucket_set_ne m [] hu

theorem full_addMetric_bucket (tag : String) (i : Index) (x u y : String) :
    y ∈ (bucket (addMetric tag i x).index u).keys ↔
      (u = tag ∧ y = x) ∨ y ∈ (bucket i.index u).keys := by
  cases hg : (bucket i.index tag).get? x with
  | some v =>
    rw [full_addMetric_of_some hg]
    have hx : x ∈ (bucket i.index tag).keys :=
      (GoMap.get?_isSome_iff _ _).1 (by simp [hg])
    constructor
    · exact fun h => Or.inr h
    · rintro (⟨rfl, rfl⟩ | h)
      · exact hx
      · exact h
  | none =>
    rw [full_addMetric_of_none hg]
    by_cases hu : tag = u
    · subst hu
      simp only [bucket_set_self, GoMap.mem_keys_set]
      tauto
    · simp only [bucket_set_ne _ _ hu]
      constructor
      · exact fun h => Or.inr h
      · rintro (⟨rfl, -⟩ | h)
        · exact absurd rfl hu
        · exact h

theorem full_foldl_addMetric_bucket (tag : String) (ms : List String) (i : Index)
    (u y : String) :
    y ∈ (bucket (ms.foldl (addMetric tag) i).index u).keys ↔
      (u = tag ∧ y ∈ ms) ∨ y ∈ (bucket i.index u).keys := by
  induction ms generalizing i with
  | nil => simp
  | cons x xs ih =>
    rw [List.foldl_cons, ih, full_addMetric_bucket, List.mem_cons]
    tauto

theorem full_addTag_bucket (ms : List String) (i : Index) (tag u y : String) :
    y ∈ (bucket (addTag ms i tag).index u).keys ↔
      (u = tag ∧ y ∈ ms) ∨ y ∈ (bucket i.index u).keys := by
  unfold addTag
  rw [full_foldl_addMetric_bucket]
  cases hs : i.index.get? tag with
  | some b => rfl
  | none => simp only [bucket_ensure hs]

theorem full_foldl_addTag_bucket (ms ts : List String) (i : Index) (u y : String) :
    y ∈ (bucket (ts.foldl (addTag ms) i).index u).keys ↔
      (u ∈ ts ∧ y ∈ ms) ∨ y ∈ (bucket i.index u).keys := by
  induction ts generalizing i with
  | nil => simp
  | cons t ts ih =>
    rw [List.foldl_cons, ih, full_addTag_bucket, List.mem_cons]
    tauto

theorem full_foldl_addMetric_of_mem (tag : String) (ms : List String) (i : Index)
    (h : ∀ x ∈ ms, x ∈ (bucket i.index tag).keys) :
    ms.foldl (addMetric tag) i = i := by
  induction ms with
  | nil => rfl
  | cons x xs ih =>
    have hx := (GoMap.get?_isSome_iff _ _).2 (h x (List.mem_cons_self _ _))
    obtain ⟨v, hv⟩ := Option.isSome_iff_exists.1 hx
    rw [List.foldl_cons, full_addMetric_of_some hv]
    exact ih (fun y hy => h y (List.mem_cons_of_mem _ hy))

theorem full_addTag_of_mem {ms : List String} (hms : ms ≠ []) (i : Index) (tag : String)
    (h : ∀ x ∈ ms, x ∈ (bucket i.index tag).keys) : addTag ms i tag = i := by
  obtain ⟨x, hx⟩ := List.exists_mem_of_ne_nil ms hms
  obtain ⟨b, hb⟩ := get?_ne_none_of_mem_bucket (h x hx)
  simp only [addTag, hb]
  exact full_foldl_addMetric_of_mem tag ms i h

theorem full_foldl_addTag_of_mem {ms : List String} (hms : ms ≠ []) (ts : List String)
    (i : Index) (h : ∀ t ∈ ts, ∀ x ∈ ms, x ∈ (bucket i.index t).keys) :
    ts.foldl (addTag ms) i = i := by
  induction ts with
  | nil => rfl
  | cons t ts ih =>
    rw [List.foldl_cons, full_addTag_of_mem hms i t (h t (List.mem_cons_self _ _))]
    exact ih (fun u hu => h u (List.mem_cons_of_mem _ hu))

theorem full_Add_eq (i : Index) {ts ms : List String} (hts : ts ≠ []) (hms : ms ≠ []) :
    Full.Add i ts ms = (ts.foldl (addTag ms) i, none) := by
  have h1 : ¬ ms.length = 0 := by simpa using hms
  have h2 : ¬ ts.length = 0 := by simpa using hts
  simp [Full.Add, h1, h2]

end FullPost

section SplitIdem

open Split

theorem split_foldl_addTag_of_mem (join : String) (ts : List String) (i : Index)
    (h : ∀ t ∈ ts, join ∈ (bucket i.tagToJoin t).keys) :
    ts.foldl (addTag join) i = i := by
  induction ts with
  | nil => rfl
  | cons t ts ih =>
    have ht := (GoMap.get?_isSome_iff _ _).2 (h t (List.mem_cons_self _ _))
    obtain ⟨v, hv⟩ := Option.isSome_iff_exists.1 ht
    rw [List.foldl_cons, split_addTag_of_some hv]
    exact ih (fun u hu => h u (List.mem_cons_of_mem _ hu))

theorem split_AddMetrics_idem (i : Index) (j : String) (ms : List String) :
    AddMetrics (AddMetrics i j ms).1 j ms = AddMetrics i j ms := by
  by_cases hms : ms = []
  · subst hms; rfl
  · obtain ⟨i1, heq, -⟩ := split_AddMetrics_eq i j hms
    have hmem : ∀ x ∈ ms, x ∈ (bucket (ms.foldl (addMetric j) i1).joinToMetric j).keys :=
      fun x hx => (split_foldl_addMetric_bucket j ms i1 x).2 (Or.inl hx)
    obtain ⟨x, hx⟩ := List.exists_mem_of_ne_nil ms hms
    obtain ⟨i2, heq2, -, -, -, -, -, -, hsame⟩ :=
      split_AddMetrics_eq (ms.foldl (addMetric j) i1) j hms
    rw [heq, heq2, hsame (get?_ne_none_of_mem_bucket (hmem x hx)),
      split_foldl_addMetric_of_mem j ms _ hmem]

theorem split_AddTags_idem (i : Index) (j : String) (ts : List String) :
    AddTags (AddTags i j ts).1 j ts = AddTags i j ts := by
  by_cases hts : ts = []
  · subst hts; rfl
  · rw [split_AddTags_eq i j hts, split_AddTags_eq _ j hts,
      split_foldl_addTag_of_mem j ts _
        (fun t ht => (split_foldl_addTag_bucket j ts i t j).2 (Or.inl ⟨ht, rfl⟩))]

end SplitIdem

theorem full_Add_idem (i : Full.Index) (ts ms : List String) :
    Full.Add (Full.Add i ts ms).1 ts ms = Full.Add i ts ms := by
  by_cases hms : ms = []
  · subst hms; rfl
  · by_cases hts : ts = []
    · subst hts
      have h1 : ¬ ms.length = 0 := by simpa using hms
      simp [Full.Add, h1]
    · rw [full_Add_eq i hts hms, full_Add_eq _ hts hms,
        full_foldl_addTag_of_mem hms ts _
          (fun t ht x hx => (full_foldl_addTag_bucket ms ts i t x).2 (Or.inl ⟨ht, hx⟩))]

/-- C4: every add call is idempotent. For every state and arguments, a second
`AddMetrics(j, ms)`, `AddTags(j, ts)` of the split index or `Add(ts, ms)` of
the full index returns the same outcome as the first and leaves the state the
first call produced, maps and counters, unchanged. -/
theorem add_idempotent (s : Split.Index) (f : Full.Index) (j : String)
    (ts ms : List String) :
    Split.AddMetrics (Split.AddMetrics s j ms).1 j ms = Split.AddMetrics s j ms ∧
    Split.AddTags (Split.AddTags s j ts).1 j ts = Split.AddTags s j ts ∧
    Full.Add (Full.Add f ts ms).1 ts ms = Full.Add f ts ms :=
  ⟨split_AddMetrics_idem s j ms, split_AddTags_idem s j ts, full_Add_idem f ts ms⟩

/-! ## C5, C6: queries that match nothing -/

/-- A queried tag with no entry empties the plucked list: no key can be counted
once per queried tag. -/
theorem pluck_countKeys_of_absent {m : GoMap String StrSet} (h : SetMapWF m)
    {T : List String} {t : String} (ht : t ∈ T) (habs : m.get? t = none) :
    pluck (countKeys m T []) T.length = [] := by
  apply List.eq_nil_iff_forall_not_mem.2
  intro k hk
  have hall := (mem_pluck_countKeys h (List.ne_nil_of_mem ht) k).1 hk t ht
  simp [bucket, habs, GoMap.keys] at hall

/-- C5: in every state of the split index and of the full index, `Query(T)`
returns the empty list (and no error) whenever some tag `t` of `T` has no
entry in `tagToJoin`, respectively `index`, whatever the other tags match. -/
theorem query_absent_tag (s : Split.Index) (f : Full.Index) (T : List String)
    (t : String) (hs : s.WF) (hf : f.WF) (ht : t ∈ T) :
    (s.tagToJoin.get? t = none → Split.Query s T = ([], none)) ∧
    (f.index.get? t = none → Full.Query f T = ([], none)) := by
  constructor
  · intro habs
    simp only [Split.Query, pluck_countKeys_of_absent hs.1 ht habs]
    rfl
  · intro habs
    simp only [Full.Query, pluck_countKeys_of_absent hf ht habs]

/-- C5 on the scenarios: `Query(["a", "c"])` on the host tagged `a` and `b`,
the same query on the full index, and the `blorgtag` query of `TestQuery`. -/
theorem query_absent_tag_witness :
    twoTagIndex.WF ∧ customIndex.WF ∧ "c" ∈ ["a", "c"] ∧
    twoTagIndex.tagToJoin.get? "c" = none ∧ customIndex.index.get? "c" = none ∧
    (Split.Query twoTagIndex ["a", "b"]).1 = ["m"] ∧
    Split.Query twoTagIndex ["a", "c"] = ([], none) ∧
    Full.Query customIndex ["a", "c"] = ([], none) ∧
    Split.Query testIndex ["blorgtag"] = ([], none) :=
  ⟨by decide, by decide, by decide, by decide, by decide, by decide,
    (query_absent_tag twoTagIndex customIndex ["a", "c"] "c"
      (by decide) (by decide) (by decide)).1 (by decide),
    (query_absent_tag twoTagIndex customIndex ["a", "c"] "c"
      (by decide) (by decide) (by decide)).2 (by decide),
    by decide⟩

/-- C6: in every state of the split index and of the full index, `Query` of
the empty tag list returns the empty list and no error. -/
theorem query_nil (s : Split.Index) (f : Full.Index) :
    Split.Query s [] = ([], none) ∧ Full.Query f [] = ([], none) :=
  ⟨rfl, rfl⟩

/-! ## C7, C8: the empty-input errors -/

/-- C7: `AddMetrics(j, ms)` of the split index returns an error exactly when
`ms` is empty, `AddTags(j, ts)` exactly when `ts` is empty, and a failing call
returns the state it was given: maps and counters unchanged, no bucket created
for `j`. -/
theorem split_add_empty_input (s : Split.Index) (j : String) (ms ts : List String) :
    ((Split.AddMetrics s j ms).2 ≠ none ↔ ms = []) ∧
    ((Split.AddMetrics s j ms).2 ≠ none → (Split.AddMetrics s j ms).1 = s) ∧
    Split.AddMetrics s j [] = (s, some (Error.cannotAddZeroMetrics j)) ∧
    ((Split.AddTags s j ts).2 ≠ none ↔ ts = []) ∧
    ((Split.AddTags s j ts).2 ≠ none → (Split.AddTags s j ts).1 = s) ∧
    Split.AddTags s j [] = (s, some (Error.cannotAddZeroTags j)) := by
  have hm : ∀ (l : List String), l.length = 0 ↔ l = [] := fun l => List.length_eq_zero
  refine ⟨?_, ?_, rfl, ?_, ?_, rfl⟩
  · by_cases h : ms = []
    · subst h; simp [Split.AddMetrics]
    · have hl : ¬ ms.length = 0 := fun hl => h ((hm ms).1 hl)
      simp [Split.AddMetrics, hl, h]
  · by_cases h : ms = []
    · subst h; simp [Split.AddMetrics]
    · have hl : ¬ ms.length = 0 := fun hl => h ((hm ms).1 hl)
      simp [Split.AddMetrics, hl]
  · by_cases h : ts = []
    · subst h; simp [Split.AddTags]
    · have hl : ¬ ts.length = 0 := fun hl => h ((hm ts).1 hl)
      simp [Split.AddTags, hl, h]
  · by_cases h : ts = []
    · subst h; simp [Split.AddTags]
    · have hl : ¬ ts.length = 0 := fun hl => h ((hm ts).1 hl)
      simp [Split.AddTags, hl]

/-- C8: `Add(tags, metrics)` of the full index returns an error exactly when
`tags` is empty or `metrics` is empty, and a failing call returns the state it
was given: the map, `tagSize` and `metricSize` unchanged. -/
theorem full_add_empty_input (f : Full.Index) (ts ms : List String) :
    ((Full.Add f ts ms).2 ≠ none ↔ (ts = [] ∨ ms = [])) ∧
    ((Full.Add f ts ms).2 ≠ none → (Full.Add f ts ms).1 = f) ∧
    Full.Add f ts [] = (f, some Error.zeroMetrics) ∧
    (ms ≠ [] → Full.Add f [] ms = (f, some Error.zeroTags)) := by
  by_cases hms : ms = []
  · subst hms; simp [Full.Add]
  · have h1 : ¬ ms.length = 0 := by simpa using hms
    by_cases hts : ts = []
    · subst hts
      simp [Full.Add, h1]
    · rw [full_Add_eq f hts hms]
      simp [hts, hms, Full.Add, h1]

/-- C7 on the index of `TestQuery`: both calls with an empty list fail and
return the index untouched; with one element they succeed. -/
theorem split_add_empty_input_witness :
    (Split.AddMetrics testIndex "hostname-1234" []).2 ≠ none ∧
    (Split.AddMetrics testIndex "hostname-1234" []).1 = testIndex ∧
    (Split.AddTags testIndex "hostname-1234" []).2 ≠ none ∧
    (Split.AddTags testIndex "hostname-1234" []).1 = testIndex ∧
    (Split.AddMetrics testIndex "hostname-1234" ["m"]).2 = none ∧
    (Split.AddTags testIndex "hostname-1234" ["t"]).2 = none :=
  ⟨by decide,
    (split_add_empty_input testIndex "hostname-1234" [] []).2.1 (by decide),
    by decide,
    (split_add_empty_input testIndex "hostname-1234" [] []).2.2.2.2.1 (by decide),
    by decide, by decide⟩

/-- C8 on the full index of the specification's scenario: an empty list on
either side fails and returns the index untouched. -/
theorem full_add_empty_input_witness :
    (Full.Add customIndex [] ["m1"]).2 ≠ none ∧
    (Full.Add customIndex [] ["m1"]).1 = customIndex ∧
    (Full.Add customIndex ["custom-fav:bob"] []).2 ≠ none ∧
    (Full.Add customIndex ["custom-fav:bob"] []).1 = customIndex ∧
    (Full.Add customIndex ["custom-fav:bob"] ["m1"]).2 = none :=
  ⟨by decide,
    (full_add_empty_input customIndex [] ["m1"]).2.1 (by decide),
    by decide,
    (full_add_empty_input customIndex ["custom-fav:bob"] []).2.1 (by decide),
    by decide⟩

/-! ## C11, C12: the counters count the stored pairs -/

/-- The pairs of a map of sets, summed entry by entry. -/
theorem pairCount_eq_sum {m : GoMap String StrSet} (h : m.WF) :
    pairCount m = (m.map (fun e => e.2.length)).sum := by
  unfold pairCount
  induction m with
  | nil => rfl
  | cons e rest ih =>
    obtain ⟨k, b⟩ := e
    simp only [GoMap.WF, GoMap.keys, List.map_cons, List.nodup_cons] at h
    have hk : bucket ((k, b) :: rest) k = b := by simp [bucket, GoMap.get?]
    have hrest : ∀ t ∈ List.map Prod.fst rest,
        (bucket ((k, b) :: rest) t).length = (bucket rest t).length := by
      intro t ht
      have hne : k ≠ t := fun heq => h.1 (heq ▸ ht)
      simp [bucket, GoMap.get?, hne]
    simp only [GoMap.keys, List.map_cons, List.sum_cons, hk]
    rw [List.map_congr_left hrest]
    have := ih h.2
    simp only [GoMap.keys] at this
    rw [this]

theorem sum_length_set (m : GoMap String StrSet) (k : String) (b : StrSet) :
    ((m.set k b).map (fun e => e.2.length)).sum + (bucket m k).length =
      (m.map (fun e => e.2.length)).sum + b.length := by
  induction m with
  | nil => simp [GoMap.set, bucket, GoMap.get?]
  | cons e rest ih =>
    obtain ⟨k₀, b₀⟩ := e
    by_cases h₀ : k₀ = k
    · subst h₀
      simp [GoMap.set, bucket, GoMap.get?]
      omega
    · have hb : bucket ((k₀, b₀) :: rest) k = bucket rest k := by
        simp [bucket, GoMap.get?, h₀]
      rw [hb]
      simp only [GoMap.set, h₀, if_false, List.map_cons, List.sum_cons]
      omega

theorem length_set_of_none {ν : Type} {b : GoMap String ν} {x : String} (v : ν)
    (h : b.get? x = none) : (b.set x v).length = b.length + 1 := by
  have hk := GoMap.keys_set b x v
  rw [if_neg ((GoMap.get?_eq_none_iff b x).1 h)] at hk
  have hl := congrArg List.length hk
  simpa [GoMap.keys] using hl

theorem length_set_of_some {ν : Type} {b : GoMap String ν} {x : String} (v : ν)
    (h : x ∈ b.keys) : (b.set x v).length = b.length := by
  have hk := GoMap.keys_set b x v
  rw [if_pos h] at hk
  have hl := congrArg List.length hk
  simpa [GoMap.keys] using hl

/-- Inserting a new element into the bucket of `k` adds one pair. -/
theorem sum_length_insert (m : GoMap String StrSet) (k x : String)
    (h : (bucket m k).get? x = none) :
    ((m.set k ((bucket m k).set x true)).map (fun e => e.2.length)).sum =
      (m.map (fun e => e.2.length)).sum + 1 := by
  have h1 := sum_length_set m k ((bucket m k).set x true)
  rw [length_set_of_none true h] at h1
  omega

/-- Creating an empty bucket for an absent key adds no pair. -/
theorem sum_length_ensure (m : GoMap String StrSet) (k : String)
    (h : m.get? k = none) :
    ((m.set k []).map (fun e => e.2.length)).sum = (m.map (fun e => e.2.length)).sum := by
  have h1 := sum_length_set m k []
  have hb : bucket m k = [] := by simp [bucket, h]
  rw [hb] at h1
  simpa using h1

section SplitAccounting

open Split

theorem split_addMetric_sum (join : String) (i : Index) (x : String)
    (h : i.metricCount = (i.joinToMetric.map (fun e => e.2.length)).sum) :
    (addMetric join i x).metricCount =
      ((addMetric join i x).joinToMetric.map (fun e => e.2.length)).sum := by
  cases hg : (bucket i.joinToMetric join).get? x with
  | some _ => rw [split_addMetric_of_some hg]; exact h
  | none =>
    rw [split_addMetric_of_none hg]
    simp only [sum_length_insert _ _ _ hg, h]

theorem split_foldl_addMetric_sum (join : String) (ms : List String) (i : Index)
    (h : i.metricCount = (i.joinToMetric.map (fun e => e.2.length)).sum) :
    (ms.foldl (addMetric join) i).metricCount =
      ((ms.foldl (addMetric join) i).joinToMetric.map (fun e => e.2.length)).sum := by
  induction ms generalizing i with
  | nil => exact h
  | cons x xs ih => exact ih _ (split_addMetric_sum join i x h)

theorem split_addTag_sum (join : String) (i : Index) (t : String)
    (h : i.tagCount = (i.tagToJoin.map (fun e => e.2.length)).sum) :
    (addTag join i t).tagCount =
      ((addTag join i t).tagToJoin.map (fun e => e.2.length)).sum := by
  cases hg : (bucket i.tagToJoin t).get? join with
  | some _ => rw [split_addTag_of_some hg]; exact h
  | none =>
    obtain ⟨hc, -, -, -, m', hm', hcase⟩ := split_addTag_of_none hg
    rw [hc, hm']
    rcases hcase with rfl | ⟨rfl, habs⟩
    · rw [sum_length_insert _ _ _ hg, h]
    · have hb : bucket i.tagToJoin t = bucket (i.tagToJoin.set t []) t := by
        rw [bucket_set_self]; simp [bucket, habs]
      rw [hb] at hg ⊢
      rw [sum_length_insert _ _ _ hg, sum_length_ensure _ _ habs, h]

theorem split_foldl_addTag_sum (join : String) (ts : List String) (i : Index)
    (h : i.tagCount = (i.tagToJoin.map (fun e => e.2.length)).sum) :
    (ts.foldl (addTag join) i).tagCount =
      ((ts.foldl (addTag join) i).tagToJoin.map (fun e => e.2.length)).sum := by
  induction ts generalizing i with
  | nil => exact h
  | cons x xs ih => exact ih _ (split_addTag_sum join i x h)

theorem split_AddMetrics_sum (i : Index) (join : String) (ms : List String)
    (h : i.tagCount = (i.tagToJoin.map (fun e => e.2.length)).sum ∧
      i.metricCount = (i.joinToMetric.map (fun e => e.2.length)).sum) :
    (AddMetrics i join ms).1.tagCount =
        ((AddMetrics i join ms).1.tagToJoin.map (fun e => e.2.length)).sum ∧
      (AddMetrics i join ms).1.metricCount =
        ((AddMetrics i join ms).1.joinToMetric.map (fun e => e.2.length)).sum := by
  by_cases hms : ms = []
  · subst hms; exact h
  · have hlen : ¬ ms.length = 0 := by simpa using hms
    cases hs : i.joinToMetric.get? join with
    | some b =>
      have heq : AddMetrics i join ms = (ms.foldl (addMetric join) i, none) := by
        simp [AddMetrics, hlen, hs]
      rw [heq]
      obtain ⟨-, f2, f3⟩ := split_foldl_addMetric_frame join ms i
      exact ⟨by rw [f2, f3]; exact h.1, split_foldl_addMetric_sum join ms i h.2⟩
    | none =>
      have heq : AddMetrics i join ms =
          (ms.foldl (addMetric join)
            { i with joinToMetric := i.joinToMetric.set join [] }, none) := by
        simp [AddMetrics, hlen, hs]
      rw [heq]
      obtain ⟨-, f2, f3⟩ := split_foldl_addMetric_frame join ms
        { i with joinToMetric := i.joinToMetric.set join [] }
      refine ⟨by rw [f2, f3]; exact h.1, split_foldl_addMetric_sum join ms _ ?_⟩
      simp only [sum_length_ensure _ _ hs]
      exact h.2

theorem split_AddTags_sum (i : Index) (join : String) (ts : List String)
    (h : i.tagCount = (i.tagToJoin.map (fun e => e.2.length)).sum ∧
      i.metricCount = (i.joinToMetric.map (fun e => e.2.length)).sum) :
    (AddTags i join ts).1.tagCount =
        ((AddTags i join ts).1.tagToJoin.map (fun e => e.2.length)).sum ∧
      (AddTags i join ts).1.metricCount =
        ((AddTags i join ts).1.joinToMetric.map (fun e => e.2.length)).sum := by
  by_cases hts : ts = []
  · subst hts; exact h
  · rw [split_AddTags_eq i join hts]
    obtain ⟨-, f2, f3⟩ := split_foldl_addTag_frame join ts i
    exact ⟨split_foldl_addTag_sum join ts i h.1, by rw [f2, f3]; exact h.2⟩

theorem split_reachable_sum {i : Index} (h : Reachable i) :
    i.tagCount = (i.tagToJoin.map (fun e => e.2.length)).sum ∧
      i.metricCount = (i.joinToMetric.map (fun e => e.2.length)).sum := by
  induction h with
  | newIndex joinKey => exact ⟨rfl, rfl⟩
  | addMetrics join metrics _ ih => exact split_AddMetrics_sum _ join metrics ih
  | addTags join tags _ ih => exact split_AddTags_sum _ join tags ih

/-- C11: in every state reached from `NewIndex` by `AddMetrics` and `AddTags`
calls, failing ones included, `TagSize()` is the sum over the tags `t` of
`len(tagToJoin[t])` and `MetricSize()` is the sum over the join keys `j` of
`len(joinToMetric[j])`. -/
theorem split_accounting (i : Index) (h : Reachable i) :
    TagSize i = pairCount i.tagToJoin ∧ MetricSize i = pairCount i.joinToMetric := by
  obtain ⟨h1, h2⟩ := split_reachable_sum h
  obtain ⟨w1, w2⟩ := split_reachable_WF h
  rw [pairCount_eq_sum w1.1, pairCount_eq_sum w2.1]
  exact ⟨h1, h2⟩

/-- C11 on the index of `TestQuery`, after one more failing call: two
(tag, join) pairs and one (join, metric) pair. -/
theorem split_accounting_witness :
    Reachable (AddTags testIndex "hostname-1234" []).1 ∧
    TagSize (AddTags testIndex "hostname-1234" []).1 = 2 ∧
    MetricSize (AddTags testIndex "hostname-1234" []).1 = 1 ∧
    (TagSize (AddTags testIndex "hostname-1234" []).1 =
        pairCount (AddTags testIndex "hostname-1234" []).1.tagToJoin ∧
      MetricSize (AddTags testIndex "hostname-1234" []).1 =
        pairCount (AddTags testIndex "hostname-1234" []).1.joinToMetric) :=
  have hr : Reachable (AddTags testIndex "hostname-1234" []).1 :=
    Reachable.addTags _ _
      (Reachable.addTags _ _ (Reachable.addMetrics _ _ (Reachable.newIndex _)))
  ⟨hr, by decide, by decide, split_accounting _ hr⟩

end SplitAccounting

section FullAccounting

open Full

theorem full_addMetric_inv (tag : String) (i : Index) (x : String)
    (hk : tag ∈ i.index.keys)
    (h : i.tagSize = i.index.length ∧
      i.metricSize = (i.index.map (fun e => e.2.length)).sum) :
    tag ∈ (addMetric tag i x).index.keys ∧
    (addMetric tag i x).tagSize = (addMetric tag i x).index.length ∧
    (addMetric tag i x).metricSize =
      ((addMetric tag i x).index.map (fun e => e.2.length)).sum := by
  cases hg : (bucket i.index tag).get? x with
  | some _ => rw [full_addMetric_of_some hg]; exact ⟨hk, h⟩
  | none =>
    rw [full_addMetric_of_none hg]
    refine ⟨(GoMap.mem_keys_set _ _ _ _).2 (Or.inl rfl), ?_, ?_⟩
    · simp only [length_set_of_some _ hk]
      exact h.1
    · simp only [sum_length_insert _ _ _ hg, h.2]

theorem full_foldl_addMetric_inv (tag : String) (ms : List String) (i : Index)
    (hk : tag ∈ i.index.keys)
    (h : i.tagSize = i.index.length ∧
      i.metricSize = (i.index.map (fun e => e.2.length)).sum) :
    (ms.foldl (addMetric tag) i).tagSize = (ms.foldl (addMetric tag) i).index.length ∧
    (ms.foldl (addMetric tag) i).metricSize =
      ((ms.foldl (addMetric tag) i).index.map (fun e => e.2.length)).sum := by
  induction ms generalizing i with
  | nil => exact h
  | cons x xs ih =>
    obtain ⟨h1, h2⟩ := full_addMetric_inv tag i x hk h
    exact ih _ h1 h2

theorem full_addTag_inv (ms : List String) (i : Index) (tag : String)
    (h : i.tagSize = i.index.length ∧
      i.metricSize = (i.index.map (fun e => e.2.length)).sum) :
    (addTag ms i tag).tagSize = (addTag ms i tag).index.length ∧
    (addTag ms i tag).metricSize =
      ((addTag ms i tag).index.map (fun e => e.2.length)).sum := by
  unfold addTag
  cases hs : i.index.get? tag with
  | some b =>
    exact full_foldl_addMetric_inv tag ms i
      ((GoMap.get?_isSome_iff _ _).1 (by simp [hs])) h
  | none =>
    apply full_foldl_addMetric_inv tag ms
    · exact (GoMap.mem_keys_set _ _ _ _).2 (Or.inl rfl)
    · simp only [length_set_of_none _ hs, sum_length_ensure _ _ hs]
      exact ⟨by rw [h.1], h.2⟩

theorem full_foldl_addTag_inv (ms ts : List String) (i : Index)
    (h : i.tagSize = i.index.length ∧
      i.metricSize = (i.index.map (fun e => e.2.length)).sum) :
    (ts.foldl (addTag ms) i).tagSize = (ts.foldl (addTag ms) i).index.length ∧
    (ts.foldl (addTag ms) i).metricSize =
      ((ts.foldl (addTag ms) i).index.map (fun e => e.2.length)).sum := by
  induction ts generalizing i with
  | nil => exact h
  | cons t ts ih => exact ih _ (full_addTag_inv ms i t h)

theorem full_Add_inv (i : Index) (ts ms : List String)
    (h : i.tagSize = i.index.length ∧
      i.metricSize = (i.index.map (fun e => e.2.length)).sum) :
    (Full.Add i ts ms).1.tagSize = (Full.Add i ts ms).1.index.length ∧
    (Full.Add i ts ms).1.metricSize =
      ((Full.Add i ts ms).1.index.map (fun e => e.2.length)).sum := by
  by_cases hms : ms = []
  · subst hms; exact h
  · by_cases hts : ts = []
    · subst hts
      have h1 : ¬ ms.length = 0 := by simpa using hms
      simpa [Full.Add, h1] using h
    · rw [full_Add_eq i hts hms]
      exact full_foldl_addTag_inv ms ts i h

theorem full_reachable_inv {i : Index} (h : Reachable i) :
    i.tagSize = i.index.length ∧
      i.metricSize = (i.index.map (fun e => e.2.length)).sum := by
  induction h with
  | newIndex => exact ⟨rfl, rfl⟩
  | add tags metrics _ ih => exact full_Add_inv _ tags metrics ih

/-- C12: in every state reached from `NewIndex` by `Add` calls, `TagSize()` is
the number of distinct tags that have an entry in `index`, and `MetricSize()`
is the number of (tag, metric) pairs stored: the sum over the tags `t` of
`len(index[t])`. -/
theorem full_accounting (i : Index) (h : Reachable i) :
    TagSize i = i.index.keys.toFinset.card ∧ MetricSize i = pairCount i.index := by
  obtain ⟨h1, h2⟩ := full_reachable_inv h
  have w := full_reachable_WF h
  rw [pairCount_eq_sum w.1, List.toFinset_card_of_nodup w.1]
  exact ⟨by simpa [TagSize, GoMap.keys] using h1, h2⟩

/-- C12 on the scenario of the specification: two tags, five pairs. -/
theorem full_accounting_witness :
    Reachable customIndex ∧ TagSize customIndex = 2 ∧ MetricSize customIndex = 5 ∧
    (TagSize customIndex = customIndex.index.keys.toFinset.card ∧
      MetricSize customIndex = pairCount customIndex.index) :=
  have hr : Reachable customIndex := Reachable.add _ _ (Reachable.add _ _ Reachable.newIndex)
  ⟨hr, by decide, by decide, full_accounting _ hr⟩

end FullAccounting

/-! ## C13: the counters never decrease -/

section Monotone

theorem split_AddMetrics_counters (i : Split.Index) (j : String) (ms : List String) :
    (Split.AddMetrics i j ms).1.tagCount = i.tagCount ∧
    i.metricCount ≤ (Split.AddMetrics i j ms).1.metricCount := by
  by_cases hms : ms = []
  · subst hms; exact ⟨rfl, Nat.le_refl _⟩
  · obtain ⟨i1, heq, hb, -, hcount, -, -, htc, -⟩ := split_AddMetrics_eq i j hms
    rw [heq]
    refine ⟨(split_foldl_addMetric_frame j ms i1).2.2.trans htc, ?_⟩
    simp only [split_foldl_addMetric_count, hcount]
    omega

theorem split_AddTags_counters (i : Split.Index) (j : String) (ts : List String) :
    i.tagCount ≤ (Split.AddTags i j ts).1.tagCount ∧
    (Split.AddTags i j ts).1.metricCount = i.metricCount := by
  by_cases hts : ts = []
  · subst hts; exact ⟨Nat.le_refl _, rfl⟩
  · rw [split_AddTags_eq i j hts]
    refine ⟨?_, (split_foldl_addTag_frame j ts i).2.2⟩
    simp only [split_foldl_addTag_count]
    omega

theorem split_step_counters (i : Split.Index) (op : Split.Op) :
    i.tagCount ≤ (Split.step i op).tagCount ∧
    i.metricCount ≤ (Split.step i op).metricCount := by
  cases op with
  | addMetrics j ms =>
    obtain ⟨h1, h2⟩ := split_AddMetrics_counters i j ms
    exact ⟨Nat.le_of_eq h1.symm, h2⟩
  | addTags j ts =>
    obtain ⟨h1, h2⟩ := split_AddTags_counters i j ts
    exact ⟨h1, Nat.le_of_eq h2.symm⟩
  | query T => exact ⟨Nat.le_refl _, Nat.le_refl _⟩

theorem split_run_counters (ops : List Split.Op) (i : Split.Index) :
    i.tagCount ≤ (Split.run i ops).tagCount ∧
    i.metricCount ≤ (Split.run i ops).metricCount := by
  unfold Split.run
  induction ops generalizing i with
  | nil => exact ⟨Nat.le_refl _, Nat.le_refl _⟩
  | cons op ops ih =>
    obtain ⟨h1, h2⟩ := split_step_counters i op
    obtain ⟨g1, g2⟩ := ih (Split.step i op)
    exact ⟨Nat.le_trans h1 g1, Nat.le_trans h2 g2⟩

theorem full_addMetric_counters (tag : String) (i : Full.Index) (x : String) :
    (Full.addMetric tag i x).tagSize = i.tagSize ∧
    i.metricSize ≤ (Full.addMetric tag i x).metricSize := by
  cases hg : (bucket i.index tag).get? x with
  | some _ => rw [full_addMetric_of_some hg]; exact ⟨rfl, Nat.le_refl _⟩
  | none => rw [full_addMetric_of_none hg]; exact ⟨rfl, Nat.le_succ _⟩

theorem full_foldl_addMetric_counters (tag : String) (ms : List String)
    (i : Full.Index) :
    (ms.foldl (Full.addMetric tag) i).tagSize = i.tagSize ∧
    i.metricSize ≤ (ms.foldl (Full.addMetric tag) i).metricSize := by
  induction ms generalizing i with
  | nil => exact ⟨rfl, Nat.le_refl _⟩
  | cons x xs ih =>
    obtain ⟨h1, h2⟩ := full_addMetric_counters tag i x
    obtain ⟨g1, g2⟩ := ih (Full.addMetric tag i x)
    exact ⟨g1.trans h1, Nat.le_trans h2 g2⟩

theorem full_addTag_counters (ms : List String) (i : Full.Index) (tag : String) :
    i.tagSize ≤ (Full.addTag ms i tag).tagSize ∧
    i.metricSize ≤ (Full.addTag ms i tag).metricSize := by
  unfold Full.addTag
  cases hs : i.index.get? tag with
  | some b =>
    obtain ⟨g1, g2⟩ := full_foldl_addMetric_counters tag ms i
    exact ⟨Nat.le_of_eq g1.symm, g2⟩
  | none =>
    obtain ⟨g1, g2⟩ := full_foldl_addMetric_counters tag ms
      { i with tagSize := i.tagSize + 1, index := i.index.set tag [] }
    exact ⟨by rw [g1]; exact Nat.le_succ _, g2⟩

theorem full_foldl_addTag_counters (ms ts : List String) (i : Full.Index) :
    i.tagSize ≤ (ts.foldl (Full.addTag ms) i).tagSize ∧
    i.metricSize ≤ (ts.foldl (Full.addTag ms) i).metricSize := by
  induction ts generalizing i with
  | nil => exact ⟨Nat.le_refl _, Nat.le_refl _⟩
  | cons t ts ih =>
    obtain ⟨h1, h2⟩ := full_addTag_counters ms i t
    obtain ⟨g1, g2⟩ := ih (Full.addTag ms i t)
    exact ⟨Nat.le_trans h1 g1, Nat.le_trans h2 g2⟩

theorem full_Add_counters (i : Full.Index) (ts ms : List String) :
    i.tagSize ≤ (Full.Add i ts ms).1.tagSize ∧
    i.metricSize ≤ (Full.Add i ts ms).1.metricSize := by
  by_cases hms : ms = []
  · subst hms; exact ⟨Nat.le_refl _, Nat.le_refl _⟩
  · by_cases hts : ts = []
    · subst hts
      have h1 : ¬ ms.length = 0 := by simpa using hms
      simp [Full.Add, h1]
    · rw [full_Add_eq i hts hms]
      exact full_foldl_addTag_counters ms ts i

theorem full_step_counters (i : Full.Index) (op : Full.Op) :
    i.tagSize ≤ (Full.step i op).tagSize ∧
    i.metricSize ≤ (Full.step i op).metricSize := by
  cases op with
  | add ts ms => exact full_Add_counters i ts ms
  | query T => exact ⟨Nat.le_refl _, Nat.le_refl _⟩

theorem full_run_counters (ops : List Full.Op) (i : Full.Index) :
    i.tagSize ≤ (Full.run i ops).tagSize ∧
    i.metricSize ≤ (Full.run i ops).metricSize := by
  unfold Full.run
  induction ops generalizing i with
  | nil => exact ⟨Nat.le_refl _, Nat.le_refl _⟩
  | cons op ops ih =>
    obtain ⟨h1, h2⟩ := full_step_counters i op
    obtain ⟨g1, g2⟩ := ih (Full.step i op)
    exact ⟨Nat.le_trans h1 g1, Nat.le_trans h2 g2⟩

/-- C13: for every state and every single call (`AddMetrics`, `AddTags`,
`Query` on the split index; `Add`, `Query` on the full index), each of
`tagCount`, `metricCount`, `tagSize` and `metricSize` is, after the call, at
least what it was before; and so it is after every sequence of calls. -/
theorem counters_monotone (s : Split.Index) (f : Full.Index) (op : Split.Op)
    (fop : Full.Op) (ops : List Split.Op) (fops : List Full.Op) :
    (s.tagCount ≤ (Split.step s op).tagCount ∧
      s.metricCount ≤ (Split.step s op).metricCount) ∧
    (f.tagSize ≤ (Full.step f fop).tagSize ∧
      f.metricSize ≤ (Full.step f fop).metricSize) ∧
    (s.tagCount ≤ (Split.run s ops).tagCount ∧
      s.metricCount ≤ (Split.run s ops).metricCount) ∧
    (f.tagSize ≤ (Full.run f fops).tagSize ∧
      f.metricSize ≤ (Full.run f fops).metricSize) :=
  ⟨split_step_counters s op, full_step_counters f fop, split_run_counters ops s,
    full_run_counters fops f⟩

end Monotone

/-! ## C14: associations are never removed -/

section NeverRemoved

theorem Grows_refl (m : GoMap String StrSet) : Grows m m := fun _ _ h => h

theorem Grows_trans {a b c : GoMap String StrSet} (h1 : Grows a b) (h2 : Grows b c) :
    Grows a c := fun k x h => h2 k x (h1 k x h)

theorem split_AddMetrics_grows (i : Split.Index) (j : String) (ms : List String) :
    (Split.AddMetrics i j ms).1.tagToJoin = i.tagToJoin ∧
    Grows i.joinToMetric (Split.AddMetrics i j ms).1.joinToMetric := by
  by_cases hms : ms = []
  · subst hms; exact ⟨rfl, Grows_refl _⟩
  · obtain ⟨i1, heq, hb, hother, -, -, htj, -⟩ := split_AddMetrics_eq i j hms
    rw [heq]
    refine ⟨(split_foldl_addMetric_frame j ms i1).2.1.trans htj, ?_⟩
    intro k x hx
    by_cases hk : j = k
    · subst hk
      exact (split_foldl_addMetric_bucket j ms i1 x).2 (Or.inr (by rw [hb]; exact hx))
    · have hget : (ms.foldl (Split.addMetric j) i1).joinToMetric.get? k =
          i.joinToMetric.get? k :=
        (split_foldl_addMetric_other j ms i1 hk).trans (hother k hk)
      simpa only [bucket, hget] using hx

theorem split_AddTags_grows (i : Split.Index) (j : String) (ts : List String) :
    Grows i.tagToJoin (Split.AddTags i j ts).1.tagToJoin ∧
    (Split.AddTags i j ts).1.joinToMetric = i.joinToMetric := by
  by_cases hts : ts = []
  · subst hts; exact ⟨Grows_refl _, rfl⟩
  · rw [split_AddTags_eq i j hts]
    exact ⟨fun t k hk => (split_foldl_addTag_bucket j ts i t k).2 (Or.inr hk),
      (split_foldl_addTag_frame j ts i).2.1⟩

theorem split_step_grows (i : Split.Index) (op : Split.Op) :
    Grows i.tagToJoin (Split.step i op).tagToJoin ∧
    Grows i.joinToMetric (Split.step i op).joinToMetric := by
  cases op with
  | addMetrics j ms =>
    obtain ⟨h1, h2⟩ := split_AddMetrics_grows i j ms
    exact ⟨by simp only [Split.step, h1]; exact Grows_refl _, h2⟩
  | addTags j ts =>
    obtain ⟨h1, h2⟩ := split_AddTags_grows i j ts
    exact ⟨h1, by simp only [Split.step, h2]; exact Grows_refl _⟩
  | query T => exact ⟨Grows_refl _, Grows_refl _⟩

theorem split_run_grows (ops : List Split.Op) (i : Split.Index) :
    Grows i.tagToJoin (Split.run i ops).tagToJoin ∧
    Grows i.joinToMetric (Split.run i ops).joinToMetric := by
  unfold Split.run
  induction ops generalizing i with
  | nil => exact ⟨Grows_refl _, Grows_refl _⟩
  | cons op ops ih =>
    obtain ⟨h1, h2⟩ := split_step_grows i op
    obtain ⟨g1, g2⟩ := ih (Split.step i op)
    exact ⟨Grows_trans h1 g1, Grows_trans h2 g2⟩

theorem full_Add_grows (i : Full.Index) (ts ms : List String) :
    Grows i.index (Full.Add i ts ms).1.index := by
  by_cases hms : ms = []
  · subst hms; exact Grows_refl _
  · by_cases hts : ts = []
    · subst hts
      have h1 : ¬ ms.length = 0 := by simpa using hms
      simp only [Full.Add, h1, if_false, List.length_nil, if_true]
      exact Grows_refl _
    · rw [full_Add_eq i hts hms]
      exact fun t x hx => (full_foldl_addTag_bucket ms ts i t x).2 (Or.inr hx)

theorem full_step_grows (i : Full.Index) (op : Full.Op) :
    Grows i.index (Full.step i op).index := by
  cases op with
  | add ts ms => exact full_Add_grows i ts ms
  | query T => exact Grows_refl _

theorem full_run_grows (ops : List Full.Op) (i : Full.Index) :
    Grows i.index (Full.run i ops).index := by
  unfold Full.run
  induction ops generalizing i with
  | nil => exact Grows_refl _
  | cons op ops ih => exact Grows_trans (full_step_grows i op) (ih (Full.step i op))

/-- C14: for every state and every call of the split index (`AddMetrics`,
`AddTags`, `Query`) and of the full index (`Add`, `Query`), every (tag, join)
pair, (join, metric) pair and (tag, metric) pair present before the call is
present after it; and so it is after every sequence of calls. -/
theorem associations_never_removed (s : Split.Index) (f : Full.Index)
    (op : Split.Op) (fop : Full.Op) (ops : List Split.Op) (fops : List Full.Op) :
    (∀ t j, j ∈ (bucket s.tagToJoin t).keys →
      j ∈ (bucket (Split.step s op).tagToJoin t).keys) ∧
    (∀ j m, m ∈ (bucket s.joinToMetric j).keys →
      m ∈ (bucket (Split.step s op).joinToMetric j).keys) ∧
    (∀ t m, m ∈ (bucket f.index t).keys →
      m ∈ (bucket (Full.step f fop).index t).keys) ∧
    Grows s.tagToJoin (Split.run s ops).tagToJoin ∧
    Grows s.joinToMetric (Split.run s ops).joinToMetric ∧
    Grows f.index (Full.run f fops).index :=
  ⟨(split_step_grows s op).1, (split_step_grows s op).2, full_step_grows f fop,
    (split_run_grows ops s).1, (split_run_grows ops s).2, full_run_grows fops f⟩

/-- C14 on the index of `TestQuery`: the pair of `server-dc:lhr` and the host
survives a further `AddTags` for another host. -/
theorem associations_never_removed_witness :
    "hostname-1234" ∈ (bucket testIndex.tagToJoin "server-dc:lhr").keys ∧
    "hostname-1234" ∈ (bucket (Split.step testIndex
      (Split.Op.addTags "hostname-9" ["server-dc:lhr"])).tagToJoin "server-dc:lhr").keys :=
  ⟨by decide,
    (associations_never_removed testIndex customIndex
      (Split.Op.addTags "hostname-9" ["server-dc:lhr"]) (Full.Op.query []) [] []).1
      "server-dc:lhr" "hostname-1234" (by decide)⟩

end NeverRemoved

/-! ## C15: the two sides of the split index are independent -/

section SideIndependence

open Split

theorem foldl_comm_of_step {σ α : Type} (f : σ → α → σ) (g : σ → σ)
    (h : ∀ s x, f (g s) x = g (f s x)) (xs : List α) (s : σ) :
    xs.foldl f (g s) = g (xs.foldl f s) := by
  induction xs generalizing s with
  | nil => rfl
  | cons x xs ih => rw [List.foldl_cons, List.foldl_cons, h, ih]

theorem split_addMetric_tagSide (join : String) (tj : GoMap String StrSet) (tc : Nat)
    (i : Index) (x : String) :
    addMetric join { i with tagToJoin := tj, tagCount := tc } x =
      { addMetric join i x with tagToJoin := tj, tagCount := tc } := by
  cases hg : (bucket i.joinToMetric join).get? x with
  | some v =>
    have hg' : (bucket ({ i with tagToJoin := tj, tagCount := tc } : Index).joinToMetric
        join).get? x = some v := hg
    rw [split_addMetric_of_some hg, split_addMetric_of_some hg']
  | none =>
    have hg' : (bucket ({ i with tagToJoin := tj, tagCount := tc } : Index).joinToMetric
        join).get? x = none := hg
    rw [split_addMetric_of_none hg, split_addMetric_of_none hg']

theorem split_addTag_metricSide (join : String) (jm : GoMap String StrSet) (mc : Nat)
    (i : Index) (t : String) :
    addTag join { i with joinToMetric := jm, metricCount := mc } t =
      { addTag join i t with joinToMetric := jm, metricCount := mc } := by
  unfold addTag
  cases hs : i.tagToJoin.get? t with
  | none =>
    simp only [hs]
    cases hg : (bucket (i.tagToJoin.set t []) t).get? join <;> simp [hg]
  | some b =>
    simp only [hs]
    cases hg : (bucket i.tagToJoin t).get? join <;> simp [hg]

theorem split_AddMetrics_tagSide (i : Index) (j : String) (ms : List String)
    (tj : GoMap String StrSet) (tc : Nat) :
    AddMetrics { i with tagToJoin := tj, tagCount := tc } j ms =
      ({ (AddMetrics i j ms).1 with tagToJoin := tj, tagCount := tc },
        (AddMetrics i j ms).2) := by
  by_cases hms : ms = []
  · subst hms; rfl
  · have hlen : ¬ ms.length = 0 := by simpa using hms
    have hfold := foldl_comm_of_step (addMetric j)
      (fun s : Index => { s with tagToJoin := tj, tagCount := tc })
      (fun s x => split_addMetric_tagSide j tj tc s x) ms
    cases hs : i.joinToMetric.get? j with
    | some b =>
      simp only [AddMetrics, hlen, hs, if_false]
      rw [← hfold i]
    | none =>
      simp only [AddMetrics, hlen, hs, if_false]
      rw [← hfold { i with joinToMetric := i.joinToMetric.set j [] }]

theorem split_AddTags_metricSide (i : Index) (j : String) (ts : List String)
    (jm : GoMap String StrSet) (mc : Nat) :
    AddTags { i with joinToMetric := jm, metricCount := mc } j ts =
      ({ (AddTags i j ts).1 with joinToMetric := jm, metricCount := mc },
        (AddTags i j ts).2) := by
  by_cases hts : ts = []
  · subst hts; rfl
  · have hfold := foldl_comm_of_step (addTag j)
      (fun s : Index => { s with joinToMetric := jm, metricCount := mc })
      (fun s x => split_addTag_metricSide j jm mc s x) ts
    rw [split_AddTags_eq _ j hts, split_AddTags_eq i j hts]
    exact congrArg (fun s => (s, (none : Option Error))) (hfold i)

theorem split_AddMetrics_frame (i : Index) (j : String) (ms : List String) :
    (AddMetrics i j ms).1.tagToJoin = i.tagToJoin ∧
    (AddMetrics i j ms).1.tagCount = i.tagCount ∧
    (AddMetrics i j ms).1.joinKey = i.joinKey := by
  by_cases hms : ms = []
  · subst hms; exact ⟨rfl, rfl, rfl⟩
  · obtain ⟨i1, heq, -, -, -, hjk, htj, htc, -⟩ := split_AddMetrics_eq i j hms
    obtain ⟨f1, f2, f3⟩ := split_foldl_addMetric_frame j ms i1
    rw [heq]
    exact ⟨f2.trans htj, f3.trans htc, f1.trans hjk⟩

theorem split_AddTags_frame (i : Index) (j : String) (ts : List String) :
    (AddTags i j ts).1.joinToMetric = i.joinToMetric ∧
    (AddTags i j ts).1.metricCount = i.metricCount ∧
    (AddTags i j ts).1.joinKey = i.joinKey := by
  by_cases hts : ts = []
  · subst hts; exact ⟨rfl, rfl, rfl⟩
  · obtain ⟨f1, f2, f3⟩ := split_foldl_addTag_frame j ts i
    rw [split_AddTags_eq i j hts]
    exact ⟨f2, f3, f1⟩

/-- C15: `AddMetrics(j, ms)` leaves `tagToJoin`, `tagCount` and the index name
unchanged, and run on a state with any other `tagToJoin` and `tagCount` it
returns the same error and the same metric side; `AddTags(j, ts)` leaves
`joinToMetric`, `metricCount` and the index name unchanged, and run on a state
with any other `joinToMetric` and `metricCount` it returns the same error and
the same tag side. -/
theorem split_side_independence (i : Index) (j : String) (ms ts : List String)
    (tj jm : GoMap String StrSet) (tc mc : Nat) :
    ((AddMetrics i j ms).1.tagToJoin = i.tagToJoin ∧
      (AddMetrics i j ms).1.tagCount = i.tagCount ∧
      (AddMetrics i j ms).1.joinKey = i.joinKey) ∧
    AddMetrics { i with tagToJoin := tj, tagCount := tc } j ms =
      ({ (AddMetrics i j ms).1 with tagToJoin := tj, tagCount := tc },
        (AddMetrics i j ms).2) ∧
    ((AddTags i j ts).1.joinToMetric = i.joinToMetric ∧
      (AddTags i j ts).1.metricCount = i.metricCount ∧
      (AddTags i j ts).1.joinKey = i.joinKey) ∧
    AddTags { i with joinToMetric := jm, metricCount := mc } j ts =
      ({ (AddTags i j ts).1 with joinToMetric := jm, metricCount := mc },
        (AddTags i j ts).2) :=
  ⟨split_AddMetrics_frame i j ms, split_AddMetrics_tagSide i j ms tj tc,
    split_AddTags_frame i j ts, split_AddTags_metricSide i j ts jm mc⟩

end SideIndependence

/-! ## C16, C17, C18: `parseQuery` -/

section ParseQuery

theorem GoMap.set_set {κ ν : Type} [DecidableEq κ] (m : GoMap κ ν) (k : κ) (v v' : ν) :
    (m.set k v).set k v' = m.set k v' := by
  induction m with
  | nil => simp [GoMap.set]
  | cons e rest ih =>
    obtain ⟨k₀, v₀⟩ := e
    by_cases h₀ : k₀ = k
    · subst h₀; simp [GoMap.set]
    · simp [GoMap.set, h₀, ih]

/-- Assigning to a key changes the total weight of the values by the weight of
the new value less that of the old one. -/
theorem sum_map_set {ν : Type} (w : ν → Nat) (m : GoMap String ν) (k : String) (b : ν) :
    ((m.set k b).map (fun e => w e.2)).sum + ((m.get? k).map w).getD 0 =
      (m.map (fun e => w e.2)).sum + w b := by
  induction m with
  | nil => simp [GoMap.set, GoMap.get?]
  | cons e rest ih =>
    obtain ⟨k₀, b₀⟩ := e
    by_cases h₀ : k₀ = k
    · subst h₀
      simp [GoMap.set, GoMap.get?]
      omega
    · simp only [GoMap.set, GoMap.get?, h₀, if_false, List.map_cons, List.sum_cons]
      omega

/-- One pass of the loop of `parseQuery` appends the token to the list of its
service. -/
theorem groupTags_cons (Parse : String → Except Error (String × String))
    {t service kv : String} (hp : Parse t = Except.ok (service, kv))
    (rest : List String) (m : GoMap String (List String)) :
    groupTags Parse (t :: rest) m =
      groupTags Parse rest (m.set service ((m.get? service).getD [] ++ [t])) := by
  cases hs : m.get? service with
  | some b => simp [groupTags, hp, hs]
  | none => simp [groupTags, hp, hs, GoMap.get?_set_self, GoMap.set_set]

theorem groupTags_cons_error (Parse : String → Except Error (String × String))
    {t : String} {err : Error} (hp : Parse t = Except.error err)
    (rest : List String) (m : GoMap String (List String)) :
    groupTags Parse (t :: rest) m = Except.error err := by
  simp [groupTags, hp]

theorem serviceOf_ok {Parse : String → Except Error (String × String)}
    {t service kv : String} (hp : Parse t = Except.ok (service, kv)) :
    serviceOf Parse t = some service := by
  simp [serviceOf, hp]

/-- What the loop of `parseQuery` has built when it ends without error. -/
theorem groupTags_ok (Parse : String → Except Error (String × String))
    (ts : List String) (m0 m : GoMap String (List String))
    (h : groupTags Parse ts m0 = Except.ok m) :
    (∀ s, (m.get? s).getD [] =
      (m0.get? s).getD [] ++ ts.filter (fun t => decide (serviceOf Parse t = some s))) ∧
    (m0.WF → m.WF) ∧
    ((∀ s l, m0.get? s = some l → l ≠ []) → ∀ s l, m.get? s = some l → l ≠ []) ∧
    (∀ t, (m.map (fun e => e.2.count t)).sum =
      (m0.map (fun e => e.2.count t)).sum + ts.count t) := by
  induction ts generalizing m0 with
  | nil =>
    simp only [groupTags, Except.ok.injEq] at h
    subst h
    simp
  | cons t rest ih =>
    cases hp : Parse t with
    | error err => rw [groupTags_cons_error Parse hp] at h; cases h
    | ok r =>
      obtain ⟨service, kv⟩ := r
      rw [groupTags_cons Parse hp] at h
      obtain ⟨h1, h2, h3, h4⟩ := ih _ h
      have hsv := serviceOf_ok hp
      refine ⟨?_, ?_, ?_, ?_⟩
      · intro s
        rw [h1 s]
        by_cases hs : service = s
        · subst hs
          simp [GoMap.get?_set_self, List.filter_cons, hsv]
        · simp [GoMap.get?_set_ne _ _ hs, List.filter_cons, hsv, hs]
      · exact fun hw => h2 (GoMap.WF_set hw _ _)
      · intro hne
        apply h3
        intro s l hl
        by_cases hs : service = s
        · subst hs
          rw [GoMap.get?_set_self] at hl
          cases hl
          simp
        · rw [GoMap.get?_set_ne _ _ hs] at hl
          exact hne s l hl
      · intro t'
        rw [h4 t']
        have hsum := sum_map_set (fun l : List String => l.count t') m0 service
          ((m0.get? service).getD [] ++ [t])
        simp only [List.count_append] at hsum
        have hold : ((m0.get? service).map (fun l : List String => l.count t')).getD 0 =
            ((m0.get? service).getD []).count t' := by
          cases m0.get? service <;> simp
        rw [hold] at hsum
        rw [List.count_cons]
        simp only [List.count_cons, List.count_nil] at hsum
        omega

/-- The loop of `parseQuery` ends without error when `tag.Parse` accepts every
token. -/
theorem groupTags_of_all_ok (Parse : String → Except Error (String × String))
    (ts : List String) (m0 : GoMap String (List String))
    (h : ∀ t ∈ ts, ∃ r, Parse t = Except.ok r) :
    ∃ m, groupTags Parse ts m0 = Except.ok m := by
  induction ts generalizing m0 with
  | nil => exact ⟨m0, rfl⟩
  | cons t rest ih =>
    obtain ⟨⟨service, kv⟩, hp⟩ := h t (List.mem_cons_self _ _)
    rw [groupTags_cons Parse hp]
    exact ih _ (fun u hu => h u (List.mem_cons_of_mem _ hu))

end ParseQuery

section ParseQueryClaims

theorem parseQuery_eq_groupTags (Parse : String → Except Error (String × String))
    {virtPrefix query : String} {queryLimit : Int}
    (hp : virtPrefix.data <+: query.data)
    (hl : ((queryTokens virtPrefix query).length : Int) ≤ queryLimit) :
    parseQuery Parse virtPrefix queryLimit query =
      groupTags Parse (queryTokens virtPrefix query) [] := by
  have hb : virtPrefix.data.isPrefixOf query.data = true := List.isPrefixOf_iff_prefix.2 hp
  have hl' : ¬ ((queryTokens virtPrefix query).length : Int) > queryLimit := not_lt.2 hl
  simp [parseQuery, hb, hl']

theorem parseQuery_ok_inv (Parse : String → Except Error (String × String))
    {virtPrefix query : String} {queryLimit : Int} {m : GoMap String (List String)}
    (h : parseQuery Parse virtPrefix queryLimit query = Except.ok m) :
    virtPrefix.data <+: query.data ∧
    ((queryTokens virtPrefix query).length : Int) ≤ queryLimit ∧
    groupTags Parse (queryTokens virtPrefix query) [] = Except.ok m := by
  unfold parseQuery at h
  by_cases hb : virtPrefix.data.isPrefixOf query.data = true
  · by_cases hl : ((queryTokens virtPrefix query).length : Int) > queryLimit
    · simp [hb, hl] at h
    · simp only [hb, not_true_eq_false, if_false, hl] at h
      exact ⟨List.isPrefixOf_iff_prefix.1 hb, not_lt.1 hl, h⟩
  · simp [hb] at h

/-- C16: whenever `parseQuery(limit, q)` succeeds, the map it returns has
distinct keys and holds, for every service `s`, the list of exactly those
`.`-separated tokens of `q` after the prefix whose `tag.Parse` service is `s`,
whole and in their order in `q` (no entry when there is none); no key maps to
an empty list; and the lists together are a rearrangement of the tokens. -/
theorem parseQuery_groups (Parse : String → Except Error (String × String))
    (virtPrefix : String) (queryLimit : Int) (query : String)
    (m : GoMap String (List String))
    (h : parseQuery Parse virtPrefix queryLimit query = Except.ok m) :
    m.WF ∧
    (∀ s, (m.get? s).getD [] =
      (queryTokens virtPrefix query).filter
        (fun t => decide (serviceOf Parse t = some s))) ∧
    (∀ s l, m.get? s = some l → l ≠ []) ∧
    (m.flatMap Prod.snd).Perm (queryTokens virtPrefix query) := by
  obtain ⟨-, -, hg⟩ := parseQuery_ok_inv Parse h
  obtain ⟨h1, h2, h3, h4⟩ := groupTags_ok Parse _ [] m hg
  refine ⟨h2 (by simp [GoMap.WF, GoMap.keys]), ?_, ?_, ?_⟩
  · intro s
    simpa [GoMap.get?] using h1 s
  · exact h3 (fun s l hl => by simp [GoMap.get?] at hl)
  · apply List.perm_iff_count.2
    intro t
    have := h4 t
    simp only [List.map_nil, List.sum_nil, Nat.zero_add] at this
    rw [List.count_flatMap, ← this]
    rfl

/-- C16 on the scenario of the specification. -/
theorem parseQuery_groups_witness :
    parseQuery Tag.Parse "virt.v1." 5 "virt.v1.server-state:live.lb-pool:www" =
      Except.ok [("server", ["server-state:live"]), ("lb", ["lb-pool:www"])] ∧
    GoMap.WF [("server", ["server-state:live"]), ("lb", ["lb-pool:www"])] ∧
    (∀ s, (GoMap.get? [("server", ["server-state:live"]), ("lb", ["lb-pool:www"])]
        s).getD [] =
      (queryTokens "virt.v1." "virt.v1.server-state:live.lb-pool:www").filter
        (fun t => decide (serviceOf Tag.Parse t = some s))) ∧
    (∀ s l, GoMap.get? [("server", ["server-state:live"]), ("lb", ["lb-pool:www"])] s =
      some l → l ≠ []) ∧
    (List.flatMap [("server", ["server-state:live"]), ("lb", ["lb-pool:www"])]
      Prod.snd).Perm (queryTokens "virt.v1." "virt.v1.server-state:live.lb-pool:www") :=
  ⟨rfl, parseQuery_groups Tag.Parse "virt.v1." 5 "virt.v1.server-state:live.lb-pool:www"
    [("server", ["server-state:live"]), ("lb", ["lb-pool:www"])] rfl⟩

/-- C17: for every query that starts with the prefix, `parseQuery` fails with
the query-too-large error when the number of `.`-separated tokens after the
prefix exceeds `queryLimit`, whatever the tokens are; and it succeeds when the
number of tokens is exactly `queryLimit` and `tag.Parse` accepts each. -/
theorem parseQuery_cap (Parse : String → Except Error (String × String))
    (virtPrefix : String) (queryLimit : Int) (query : String)
    (hp : virtPrefix.data <+: query.data) :
    (((queryTokens virtPrefix query).length : Int) > queryLimit →
      parseQuery Parse virtPrefix queryLimit query =
        Except.error (Error.queryTooLarge queryLimit (queryTokens virtPrefix query).length)) ∧
    (((queryTokens virtPrefix query).length : Int) = queryLimit →
      (∀ t ∈ queryTokens virtPrefix query, ∃ r, Parse t = Except.ok r) →
      ∃ m, parseQuery Parse virtPrefix queryLimit query = Except.ok m) := by
  have hb : virtPrefix.data.isPrefixOf query.data = true := List.isPrefixOf_iff_prefix.2 hp
  constructor
  · intro hl
    simp [parseQuery, hb, hl]
  · intro hl hall
    rw [parseQuery_eq_groupTags Parse hp (le_of_eq hl)]
    exact groupTags_of_all_ok Parse _ [] hall

/-- C17 on the scenario of the specification: two tokens fail the cap 1, pass
the cap 5, and pass the cap 2 they meet exactly. -/
theorem parseQuery_cap_witness :
    "virt.v1.".data <+: "virt.v1.server-state:live.lb-pool:www".data ∧
    queryTokens "virt.v1." "virt.v1.server-state:live.lb-pool:www" =
      ["server-state:live", "lb-pool:www"] ∧
    parseQuery Tag.Parse "virt.v1." 1 "virt.v1.server-state:live.lb-pool:www" =
      Except.error (Error.queryTooLarge 1 2) ∧
    (∃ m, parseQuery Tag.Parse "virt.v1." 5 "virt.v1.server-state:live.lb-pool:www" =
      Except.ok m) ∧
    (∃ m, parseQuery Tag.Parse "virt.v1." 2 "virt.v1.server-state:live.lb-pool:www" =
      Except.ok m) :=
  ⟨by decide, by decide,
    (parseQuery_cap Tag.Parse "virt.v1." 1 "virt.v1.server-state:live.lb-pool:www"
      (by decide)).1 (by decide),
    ⟨_, rfl⟩,
    (parseQuery_cap Tag.Parse "virt.v1." 2 "virt.v1.server-state:live.lb-pool:www"
      (by decide)).2 (by decide)
      (by
        intro t ht
        have ht' : t = "server-state:live" ∨ t = "lb-pool:www" := by
          simpa [show queryTokens "virt.v1." "virt.v1.server-state:live.lb-pool:www" =
            ["server-state:live", "lb-pool:www"] from by decide] using ht
        rcases ht' with rfl | rfl
        · exact ⟨_, rfl⟩
        · exact ⟨_, rfl⟩)⟩

/-- C18: for every `queryLimit` and every query that does not start with
`virtPrefix`, `parseQuery` returns the not-a-virtual-metric error, and so no
map, whatever the rest of the query is. -/
theorem parseQuery_not_virtual (Parse : String → Except Error (String × String))
    (virtPrefix : String) (queryLimit : Int) (query : String)
    (h : ¬ virtPrefix.data <+: query.data) :
    parseQuery Parse virtPrefix queryLimit query =
      Except.error (Error.notVirtual virtPrefix query) := by
  have hb : ¬ virtPrefix.data.isPrefixOf query.data = true :=
    fun hb => h (List.isPrefixOf_iff_prefix.1 hb)
  simp [parseQuery, hb]

/-- C18 with the default prefix `virt.v1.`: a query of well-formed tags under
another prefix is refused, under any cap. -/
theorem parseQuery_not_virtual_witness :
    ¬ "virt.v1.".data <+: "virt.v2.server-state:live".data ∧
    parseQuery Tag.Parse "virt.v1." 5 "virt.v2.server-state:live" =
      Except.error (Error.notVirtual "virt.v1." "virt.v2.server-state:live") :=
  ⟨by decide,
    parseQuery_not_virtual Tag.Parse "virt.v1." 5 "virt.v2.server-state:live" (by decide)⟩

end ParseQueryClaims

/-! ## C20: `tag.Parse` on well-formed tags -/

section TagParse

theorem takeWhile_append_cons {α : Type} (p : α → Bool) (s : List α) (c : α)
    (r : List α) (hs : ∀ x ∈ s, p x = true) (hc : p c = false) :
    (s ++ c :: r).takeWhile p = s := by
  induction s with
  | nil => simp [List.takeWhile, hc]
  | cons a s ih =>
    have ha : p a = true := hs a (List.mem_cons_self _ _)
    simp only [List.cons_append, List.takeWhile_cons, ha, if_true]
    rw [ih (fun x hx => hs x (List.mem_cons_of_mem _ hx))]

/-- `tag.Parse` on the characters of a service, a dash and a rest. -/
theorem Tag_Parse_data (tag : String) (service kv : List Char)
    (htag : tag.data = service ++ '-' :: kv)
    (hs : ∀ c ∈ service, c.isAlpha = true) :
    Tag.Parse tag =
      if service ≠ [] ∧ ':' ∈ kv ∧ '.' ∉ kv then
        Except.ok (String.mk service, String.mk kv)
      else Except.error (Error.malformedTag tag) := by
  have htw : tag.data.takeWhile Char.isAlpha = service := by
    rw [htag]
    exact takeWhile_append_cons _ _ _ _ hs (by decide)
  have hdrop : tag.data.drop service.length = '-' :: kv := by
    rw [htag]
    exact List.drop_left _ _
  simp only [Tag.Parse, htw, hdrop]

/-- C20: for every tag `service-key:value`, where `service` is one or more
ASCII letters and the part after the dash holds at least one `:` and no `.`,
`Parse` returns, without error, the pair of `service` and that part. -/
theorem Tag_Parse_wellformed (service kv : String) (h1 : service.data ≠ [])
    (h2 : ∀ c ∈ service.data, c.isAlpha = true) (h3 : ':' ∈ kv.data)
    (h4 : '.' ∉ kv.data) :
    Tag.Parse (service ++ "-" ++ kv) = Except.ok (service, kv) := by
  have hdata : (service ++ "-" ++ kv).data = service.data ++ '-' :: kv.data := by
    simp [String.data_append]
  rw [Tag_Parse_data _ service.data kv.data hdata h2]
  simp [h1, h3, h4]

/-- C20 on the tags of `TestParse`. -/
theorem Tag_Parse_wellformed_witness :
    "server".data ≠ [] ∧ (∀ c ∈ "server".data, c.isAlpha = true) ∧
    ':' ∈ "state:live".data ∧ '.' ∉ "state:live".data ∧
    "server" ++ "-" ++ "state:live" = "server-state:live" ∧
    Tag.Parse ("server" ++ "-" ++ "state:live") = Except.ok ("server", "state:live") ∧
    Tag.Parse "server-state:live" = Except.ok ("server", "state:live") ∧
    Tag.Parse "server-interfaces:eth1:ip_address:10_1_2_3" =
      Except.ok ("server", "interfaces:eth1:ip_address:10_1_2_3") ∧
    Tag.Parse "lb-pool:www" = Except.ok ("lb", "pool:www") :=
  ⟨by decide, by decide, by decide, by decide, by decide,
    Tag_Parse_wellformed "server" "state:live" (by decide) (by decide) (by decide)
      (by decide),
    rfl, rfl, rfl⟩

end TagParse

/-! ## C19: `IntersectJoins` -/

section Intersect

open Split

theorem WF_countLists (ls : List (List String)) {c : GoMap String Nat} (h : c.WF) :
    (ls.foldl (fun counts joins => joins.foldl incr counts) c).WF := by
  induction ls generalizing c with
  | nil => exact h
  | cons l ls ih => exact ih (WF_foldl_incr _ h)

theorem getD_countLists (ls : List (List String)) (c : GoMap String Nat) (k : String) :
    ((ls.foldl (fun counts joins => joins.foldl incr counts) c).get? k).getD 0 =
      (c.get? k).getD 0 + (ls.map (fun l => l.count k)).sum := by
  induction ls generalizing c with
  | nil => simp
  | cons l ls ih =>
    rw [List.foldl_cons, ih, getD_foldl_incr]
    simp [Nat.add_assoc]

theorem sum_count_lists (ls : List (List String)) (h : ∀ l ∈ ls, l.Nodup) (k : String) :
    (ls.map (fun l => l.count k)).sum = ls.countP (fun l => decide (k ∈ l)) := by
  induction ls with
  | nil => simp
  | cons l ls ih =>
    rw [List.map_cons, List.sum_cons, ih (fun l' hl' => h l' (List.mem_cons_of_mem _ hl')),
      List.countP_cons]
    by_cases hk : k ∈ l
    · rw [List.count_eq_one_of_mem (h l (List.mem_cons_self _ _)) hk]
      simp [hk]; omega
    · rw [List.count_eq_zero.2 hk]
      simp [hk]

theorem nodup_IntersectJoins (ls : List (List Join)) : (IntersectJoins ls).Nodup :=
  nodup_pluck (WF_countLists ls (by simp [GoMap.WF, GoMap.keys])) _

/-- The joins kept from a non-empty list of duplicate-free join lists are those
that occur in every list. -/
theorem mem_IntersectJoins {ls : List (List Join)} (hne : ls ≠ [])
    (h : ∀ l ∈ ls, l.Nodup) (x : Join) :
    x ∈ IntersectJoins ls ↔ ∀ l ∈ ls, x ∈ l := by
  have hWF : GoMap.WF (ls.foldl (fun counts joins => joins.foldl incr counts)
      ([] : GoMap String Nat)) :=
    WF_countLists ls (by simp [GoMap.WF, GoMap.keys])
  have hcnt := getD_countLists ls [] x
  rw [sum_count_lists ls h] at hcnt
  simp only [GoMap.get?, Option.getD_none, Nat.zero_add] at hcnt
  have hlen : ls.length ≠ 0 := by simpa using hne
  unfold IntersectJoins
  rw [mem_pluck hWF]
  constructor
  · intro hk
    rw [hk, Option.getD_some] at hcnt
    have := List.countP_eq_length.1 hcnt.symm
    simpa using this
  · intro hall
    have hc : ls.countP (fun l => decide (x ∈ l)) = ls.length :=
      List.countP_eq_length.2 (by simpa using hall)
    rw [hc] at hcnt
    cases hg : GoMap.get? (ls.foldl (fun counts joins => joins.foldl incr counts)
        ([] : GoMap String Nat)) x with
    | none => rw [hg] at hcnt; simp at hcnt; exact absurd hcnt.symm hlen
    | some v => rw [hg] at hcnt; simpa using hcnt

/-- C19, as stated, fails on sorted lists that hold a join twice. The lists
`["a", "a"]` and `["b"]` are sorted, yet `IntersectJoins` returns `a`, which
is not in `["b"]`; with `["a", "a"]` and the empty list it returns `a` instead
of nothing; and for the single list `["a", "a"]` it returns nothing instead of
`a`. The count of `a` is the number of its occurrences, not of the lists that
hold it. -/
theorem IntersectJoins_repeated_counterexample :
    (∀ l ∈ [["a", "a"], ["b"]], List.Sorted (fun (x y : Join) => x ≤ y) l) ∧
    [["a", "a"], ["b"]] ≠ ([] : List (List Join)) ∧
    "a" ∈ IntersectJoins [["a", "a"], ["b"]] ∧
    ¬ (∀ l ∈ [["a", "a"], ["b"]], "a" ∈ l) ∧
    List.Sorted (fun (x y : Join) => x ≤ y) [] ∧
    IntersectJoins [["a", "a"], []] = ["a"] ∧
    IntersectJoins [["a", "a"]] = [] := by
  refine ⟨?_, by decide, by decide, by decide, List.sorted_nil, by decide, by decide⟩
  intro l hl
  simp only [List.mem_cons, List.mem_singleton, List.not_mem_nil, or_false] at hl
  rcases hl with rfl | rfl
  · simp [List.Sorted]
  · simp [List.Sorted]

/-- C19 (amended): for every list of join lists sorted in strictly ascending
order (sorted, and no join twice in a list): when the list is not empty
`IntersectJoins` returns, once each, exactly the joins that occur in every one
of the lists; it returns the empty list for the empty list of lists, when one
of the lists is empty, and when no join occurs in all the lists; for a single
list it returns the joins of that list. -/
theorem IntersectJoins_spec (joinSets : List (List Join))
    (hs : ∀ l ∈ joinSets, l.Sorted (· < ·)) :
    (joinSets ≠ [] → ∀ x, x ∈ IntersectJoins joinSets ↔ ∀ l ∈ joinSets, x ∈ l) ∧
    (IntersectJoins joinSets).Nodup ∧
    IntersectJoins [] = [] ∧
    ([] ∈ joinSets → IntersectJoins joinSets = []) ∧
    ((∀ x, ¬ ∀ l ∈ joinSets, x ∈ l) → IntersectJoins joinSets = []) ∧
    (∀ l, joinSets = [l] → (IntersectJoins joinSets).Perm l) := by
  have hn : ∀ l ∈ joinSets, l.Nodup := fun l hl => (hs l hl).nodup
  refine ⟨fun hne x => mem_IntersectJoins hne hn x, nodup_IntersectJoins joinSets, rfl,
    ?_, ?_, ?_⟩
  · intro hmem
    apply List.eq_nil_iff_forall_not_mem.2
    intro x hx
    have := (mem_IntersectJoins (List.ne_nil_of_mem hmem) hn x).1 hx [] hmem
    simp at this
  · intro hno
    by_cases hne : joinSets = []
    · subst hne; rfl
    · apply List.eq_nil_iff_forall_not_mem.2
      intro x hx
      exact hno x ((mem_IntersectJoins hne hn x).1 hx)
  · intro l hl
    subst hl
    apply (List.perm_ext_iff_of_nodup (nodup_IntersectJoins [l])
      (hn l (List.mem_singleton.2 rfl))).2
    intro x
    rw [mem_IntersectJoins (by simp) hn x]
    simp

theorem sorted_test_joins :
    ∀ l ∈ [["bar", "baz", "foo"], ["bar", "qux"], ["bar", "blorg"]],
      List.Sorted (fun (a b : Join) => a < b) l := by
  intro l hl
  simp only [List.mem_cons, List.mem_singleton, List.not_mem_nil, or_false] at hl
  rcases hl with rfl | rfl | rfl <;>
    (simp only [List.Sorted, List.pairwise_cons, List.mem_cons, List.mem_singleton,
      forall_eq_or_imp, forall_eq, String.lt_iff_toList_lt]
     decide)

/-- C19 on the lists of `TestIntersectJoins`: the three sorted lists share
`bar` only. -/
theorem IntersectJoins_spec_witness :
    IntersectJoins [["bar", "baz", "foo"], ["bar", "qux"], ["bar", "blorg"]] = ["bar"] ∧
    IntersectJoins [["bar", "baz", "foo"], ["bar", "qux"], []] = [] ∧
    IntersectJoins [["foo"]] = ["foo"] ∧
    (∀ x, x ∈ IntersectJoins [["bar", "baz", "foo"], ["bar", "qux"], ["bar", "blorg"]] ↔
      ∀ l ∈ [["bar", "baz", "foo"], ["bar", "qux"], ["bar", "blorg"]], x ∈ l) :=
  ⟨by decide, by decide, by decide,
    (IntersectJoins_spec [["bar", "baz", "foo"], ["bar", "qux"], ["bar", "blorg"]]
      sorted_test_joins).1 (by decide)⟩

end Intersect

/-- The tag side of `Query` is `IntersectJoins` of the buckets of the queried
tags. -/
theorem split_Query_eq_IntersectJoins (i : Split.Index) (T : List String) :
    Split.Query i T =
      (Split.fetchMetrics i
        (Split.IntersectJoins (T.map (fun t => (bucket i.tagToJoin t).keys))), none) := by
  simp only [Split.Query, Split.IntersectJoins, countKeys, List.foldl_map, List.length_map]

/-! ## C21: `tag.Parse` on tokens that are not tags -/

section TagParseRejects

theorem drop_length_takeWhile {α : Type} (p : α → Bool) (l : List α) :
    l.drop (l.takeWhile p).length = l.dropWhile p := by
  induction l with
  | nil => rfl
  | cons a l ih =>
    by_cases ha : p a = true
    · simp [List.takeWhile_cons, List.dropWhile_cons, ha, ih]
    · simp [List.takeWhile_cons, List.dropWhile_cons, ha]

/-- `tag.Parse` either fails with the malformed-tag error, or the token is its
leading letters, a dash and a rest, and the checks on them passed. -/
theorem Tag_Parse_cases (tag : String) :
    Tag.Parse tag = Except.error (Error.malformedTag tag) ∨
    ∃ kv, tag.data = tag.data.takeWhile Char.isAlpha ++ '-' :: kv ∧
      tag.data.takeWhile Char.isAlpha ≠ [] ∧ ':' ∈ kv ∧ '.' ∉ kv ∧
      Tag.Parse tag =
        Except.ok (String.mk (tag.data.takeWhile Char.isAlpha), String.mk kv) := by
  have hsplit : tag.data.takeWhile Char.isAlpha ++
      tag.data.drop (tag.data.takeWhile Char.isAlpha).length = tag.data := by
    rw [drop_length_takeWhile]
    exact List.takeWhile_append_dropWhile Char.isAlpha tag.data
  cases hd : tag.data.drop (tag.data.takeWhile Char.isAlpha).length with
  | nil => left; simp [Tag.Parse, hd]
  | cons c kv =>
    by_cases hc : c = '-'
    · subst hc
      by_cases hcond : tag.data.takeWhile Char.isAlpha ≠ [] ∧ ':' ∈ kv ∧ '.' ∉ kv
      · right
        refine ⟨kv, ?_, hcond.1, hcond.2.1, hcond.2.2, ?_⟩
        · rw [← hd]; exact hsplit.symm
        · simp only [Tag.Parse, hd]
          rw [if_pos hcond]
      · left
        simp only [Tag.Parse, hd]
        rw [if_neg hcond]
    · left
      simp only [Tag.Parse, hd]
      split
      · rename_i heq
        cases heq
        exact absurd rfl hc
      · rfl

end TagParseRejects

section TagParseRejectsClaim

/-- C21: `Parse` fails, with the malformed-tag error, on every token that
contains a `.`, on every token without a `:`, and on every token that does not
start with one or more ASCII letters followed by a dash. -/
theorem Tag_Parse_rejects (tag : String)
    (h : '.' ∈ tag.data ∨ ':' ∉ tag.data ∨
      ¬ ∃ s kv, s ≠ [] ∧ (∀ c ∈ s, c.isAlpha = true) ∧ tag.data = s ++ '-' :: kv) :
    Tag.Parse tag = Except.error (Error.malformedTag tag) := by
  rcases Tag_Parse_cases tag with herr | ⟨kv, hdata, hne, hcolon, hdot, -⟩
  · exact herr
  · exfalso
    have halpha : ∀ c ∈ tag.data.takeWhile Char.isAlpha, c.isAlpha = true :=
      fun c hc => List.mem_takeWhile_imp hc
    rcases h with h | h | h
    · rw [hdata, List.mem_append, List.mem_cons] at h
      rcases h with h | h | h
      · exact absurd (halpha _ h) (by decide)
      · exact absurd h (by decide)
      · exact hdot h
    · apply h
      rw [hdata]
      exact List.mem_append_right _ (List.mem_cons_of_mem _ hcolon)
    · exact h ⟨_, kv, hne, halpha, hdata⟩

/-- C21 on the invalid cases of `TestParse`: a `.` in the value, no service
before the key, no key:value part, and a `:` where the dash should be. -/
theorem Tag_Parse_rejects_witness :
    '.' ∈ "server-interfaces:eth1:ip_address:10.1.2.3".data ∧
    Tag.Parse "server-interfaces:eth1:ip_address:10.1.2.3" =
      Except.error (Error.malformedTag "server-interfaces:eth1:ip_address:10.1.2.3") ∧
    ':' ∉ "server".data ∧
    Tag.Parse "server" = Except.error (Error.malformedTag "server") ∧
    Tag.Parse "dc:lhr" = Except.error (Error.malformedTag "dc:lhr") ∧
    Tag.Parse "btyler:favorites-custom" =
      Except.error (Error.malformedTag "btyler:favorites-custom") ∧
    Tag.Parse "asdfasdfaqwerioqwr" = Except.error (Error.malformedTag "asdfasdfaqwerioqwr") ∧
    Tag.Parse "::::-:--:;;;:0" = Except.error (Error.malformedTag "::::-:--:;;;:0") :=
  ⟨by decide,
    Tag_Parse_rejects "server-interfaces:eth1:ip_address:10.1.2.3" (Or.inl (by decide)),
    by decide,
    Tag_Parse_rejects "server" (Or.inr (Or.inl (by decide))),
    Tag_Parse_rejects "dc:lhr" (Or.inr (Or.inr (by
      rintro ⟨s, kv, -, -, h⟩
      have hdash : '-' ∈ "dc:lhr".data := by rw [h]; simp
      exact absurd hdash (by decide)))),
    rfl, rfl, rfl⟩

end TagParseRejectsClaim

/-! ## C22: how often the split `Query` returns a metric -/

section Multiplicity

open Split

/-- The result of `Query` holds a metric once for every plucked join key whose
bucket holds it. -/
theorem split_count_Query_pluck (i : Index) (h : i.WF) (T : List String) (m : String) :
    (Query i T).1.count m =
      ((pluck (countKeys i.tagToJoin T []) T.length).filter
        (fun j => decide (m ∈ (bucket i.joinToMetric j).keys))).length := by
  simp only [Query, split_fetchMetrics_eq, List.count_flatMap]
  have hn : ∀ l ∈ (pluck (countKeys i.tagToJoin T []) T.length).map
      (fun j => (bucket i.joinToMetric j).keys), l.Nodup := by
    intro l hl
    obtain ⟨j, -, rfl⟩ := List.mem_map.1 hl
    exact bucket_WF h.2 j
  have hsum := sum_count_lists _ hn m
  rw [List.map_map, List.countP_map, List.countP_eq_length_filter] at hsum
  exact hsum

/-- The number of times `Query(T)` returns `m`, for a non-empty `T`, is the
number of join keys that are in the bucket of every tag of `T` and hold `m`. -/
theorem split_count_Query (i : Index) (h : i.WF) {T : List String} (hT : T ≠ [])
    (m : String) :
    (Query i T).1.count m =
      (i.joinToMetric.keys.toFinset.filter
        (fun j => (∀ t ∈ T, j ∈ (bucket i.tagToJoin t).keys) ∧
          m ∈ (bucket i.joinToMetric j).keys)).card := by
  rw [split_count_Query_pluck i h T m]
  have hnd : ((pluck (countKeys i.tagToJoin T []) T.length).filter
      (fun j => decide (m ∈ (bucket i.joinToMetric j).keys))).Nodup :=
    List.Nodup.sublist (List.filter_sublist _)
      (nodup_pluck (WF_countKeys _ _ (by simp [GoMap.WF, GoMap.keys])) _)
  rw [← List.toFinset_card_of_nodup hnd]
  congr 1
  ext j
  simp only [List.mem_toFinset, List.mem_filter, Finset.mem_filter,
    mem_pluck_countKeys h.1 hT, decide_eq_true_eq]
  constructor
  · rintro ⟨h1, h2⟩
    obtain ⟨b, hb⟩ := get?_ne_none_of_mem_bucket h2
    exact ⟨(GoMap.get?_isSome_iff _ _).1 (by simp [hb]), h1, h2⟩
  · rintro ⟨-, h1, h2⟩
    exact ⟨h1, h2⟩

/-- `Query(T)` returns no metric twice when the buckets of the join keys that
are in the bucket of every tag of `T` are pairwise disjoint. -/
theorem split_nodup_Query (i : Index) (h : i.WF) {T : List String} (hT : T ≠ [])
    (hd : ∀ j₁ j₂, (∀ t ∈ T, j₁ ∈ (bucket i.tagToJoin t).keys) →
      (∀ t ∈ T, j₂ ∈ (bucket i.tagToJoin t).keys) → j₁ ≠ j₂ →
      List.Disjoint (bucket i.joinToMetric j₁).keys (bucket i.joinToMetric j₂).keys) :
    (Query i T).1.Nodup := by
  simp only [Query, split_fetchMetrics_eq]
  rw [List.nodup_flatMap]
  refine ⟨fun j _ => bucket_WF h.2 j, ?_⟩
  have hn : (pluck (countKeys i.tagToJoin T []) T.length).Nodup :=
    nodup_pluck (WF_countKeys _ _ (by simp [GoMap.WF, GoMap.keys])) _
  exact List.Pairwise.imp_of_mem
    (fun {a b} ha hb hab =>
      hd a b ((mem_pluck_countKeys h.1 hT a).1 ha) ((mem_pluck_countKeys h.1 hT b).1 hb) hab)
    hn

/-- C22: in every state of the split index and for every non-empty tag list
`T`, the number of times a metric `m` occurs in `Query(T)` is the number of
join keys `j` that are in `tagToJoin[t]` for every `t` of `T` and have `m` in
`joinToMetric[j]`; and the result has no duplicates when the buckets of those
surviving join keys are pairwise disjoint. -/
theorem split_query_multiplicity (i : Index) (h : i.WF) (T : List String) (hT : T ≠ []) :
    (∀ m, (Query i T).1.count m =
      (i.joinToMetric.keys.toFinset.filter
        (fun j => (∀ t ∈ T, j ∈ (bucket i.tagToJoin t).keys) ∧
          m ∈ (bucket i.joinToMetric j).keys)).card) ∧
    ((∀ j₁ j₂, (∀ t ∈ T, j₁ ∈ (bucket i.tagToJoin t).keys) →
        (∀ t ∈ T, j₂ ∈ (bucket i.tagToJoin t).keys) → j₁ ≠ j₂ →
        List.Disjoint (bucket i.joinToMetric j₁).keys (bucket i.joinToMetric j₂).keys) →
      (Query i T).1.Nodup) :=
  ⟨fun m => split_count_Query i h hT m, fun hd => split_nodup_Query i h hT hd⟩

/-- C22 on two scenarios: two hosts with the same tag and distinct metrics
return both metrics once each; two hosts with the same tag and the same
metric return it twice. -/
theorem split_query_multiplicity_witness :
    twoHostIndex.WF ∧ sharedMetricIndex.WF ∧ ["server-state:live"] ≠ [] ∧
    (Query twoHostIndex ["server-state:live"]).1.Perm ["m1", "m2"] ∧
    (Query twoHostIndex ["server-state:live"]).1.Nodup ∧
    (Query sharedMetricIndex ["server-state:live"]).1 = ["m", "m"] ∧
    (Query sharedMetricIndex ["server-state:live"]).1.count "m" =
      (sharedMetricIndex.joinToMetric.keys.toFinset.filter
        (fun j => (∀ t ∈ ["server-state:live"],
            j ∈ (bucket sharedMetricIndex.tagToJoin t).keys) ∧
          "m" ∈ (bucket sharedMetricIndex.joinToMetric j).keys)).card ∧
    (sharedMetricIndex.joinToMetric.keys.toFinset.filter
        (fun j => (∀ t ∈ ["server-state:live"],
            j ∈ (bucket sharedMetricIndex.tagToJoin t).keys) ∧
          "m" ∈ (bucket sharedMetricIndex.joinToMetric j).keys)).card = 2 :=
  ⟨by decide, by decide, by decide, by decide, by decide, by decide,
    (split_query_multiplicity sharedMetricIndex (by decide) ["server-state:live"]
      (by decide)).1 "m",
    by decide⟩

end Multiplicity

/-! ## C23: `Query` depends on the set of queried tags only -/

section TagSet

/-- Two queries with the same set of tags pluck the same keys, up to order. -/
theorem pluck_countKeys_perm {m : GoMap String StrSet} (h : SetMapWF m)
    {T T' : List String} (hset : ∀ t, t ∈ T ↔ t ∈ T') :
    (pluck (countKeys m T []) T.length).Perm (pluck (countKeys m T' []) T'.length) := by
  by_cases hT : T = []
  · subst hT
    have hT' : T' = [] :=
      List.eq_nil_iff_forall_not_mem.2 (fun t ht => by simpa using (hset t).2 ht)
    subst hT'
    exact List.Perm.refl _
  · have hT' : T' ≠ [] := by
      obtain ⟨t, ht⟩ := List.exists_mem_of_ne_nil T hT
      exact List.ne_nil_of_mem ((hset t).1 ht)
    apply (List.perm_ext_iff_of_nodup
      (nodup_pluck (WF_countKeys _ _ (by simp [GoMap.WF, GoMap.keys])) _)
      (nodup_pluck (WF_countKeys _ _ (by simp [GoMap.WF, GoMap.keys])) _)).2
    intro k
    rw [mem_pluck_countKeys h hT, mem_pluck_countKeys h hT']
    constructor
    · exact fun hk t ht => hk t ((hset t).2 ht)
    · exact fun hk t ht => hk t ((hset t).1 ht)

theorem split_Query_perm_of_same_set (s : Split.Index) (hs : s.WF) {T T' : List String}
    (hset : ∀ t, t ∈ T ↔ t ∈ T') :
    (Split.Query s T).1.Perm (Split.Query s T').1 := by
  simp only [Split.Query, split_fetchMetrics_eq]
  exact List.Perm.flatMap_right _ (pluck_countKeys_perm hs.1 hset)

theorem full_Query_perm_of_same_set (f : Full.Index) (hf : f.WF) {T T' : List String}
    (hset : ∀ t, t ∈ T ↔ t ∈ T') :
    (Full.Query f T).1.Perm (Full.Query f T').1 :=
  pluck_countKeys_perm hf hset

/-- C23: in every state of the split index and of the full index, two tag
lists with the same set of tags get the same metrics, each as many times, from
`Query`; so do, in particular, a list `T` and any permutation of `T`, and `T`
and any list obtained from `T` by repeating tags of `T`. -/
theorem query_depends_on_tag_set (s : Split.Index) (f : Full.Index) (hs : s.WF)
    (hf : f.WF) (T : List String) :
    (∀ T', (∀ t, t ∈ T ↔ t ∈ T') →
      (Split.Query s T).1.Perm (Split.Query s T').1 ∧
      (Full.Query f T).1.Perm (Full.Query f T').1) ∧
    (∀ T', T.Perm T' →
      (Split.Query s T).1.Perm (Split.Query s T').1 ∧
      (Full.Query f T).1.Perm (Full.Query f T').1) ∧
    (∀ R, (∀ t ∈ R, t ∈ T) →
      (Split.Query s T).1.Perm (Split.Query s (T ++ R)).1 ∧
      (Full.Query f T).1.Perm (Full.Query f (T ++ R)).1) := by
  refine ⟨?_, ?_, ?_⟩
  · intro T' hset
    exact ⟨split_Query_perm_of_same_set s hs hset, full_Query_perm_of_same_set f hf hset⟩
  · intro T' hp
    have hset : ∀ t, t ∈ T ↔ t ∈ T' := fun t => hp.mem_iff
    exact ⟨split_Query_perm_of_same_set s hs hset, full_Query_perm_of_same_set f hf hset⟩
  · intro R hR
    have hset : ∀ t, t ∈ T ↔ t ∈ T ++ R := by
      intro t
      rw [List.mem_append]
      exact ⟨Or.inl, fun ht => ht.elim id (hR t)⟩
    exact ⟨split_Query_perm_of_same_set s hs hset, full_Query_perm_of_same_set f hf hset⟩

/-- C23 on the scenarios: the two tags of the host swapped and one repeated,
on the split index; the two tags of the full index swapped and one repeated. -/
theorem query_depends_on_tag_set_witness :
    twoTagIndex.WF ∧ customIndex.WF ∧
    (Split.Query twoTagIndex ["a", "b"]).1 = ["m"] ∧
    (Split.Query twoTagIndex ["b", "a"]).1 = ["m"] ∧
    (Split.Query twoTagIndex ["a", "b", "a"]).1 = ["m"] ∧
    ((Split.Query twoTagIndex ["a", "b"]).1.Perm (Split.Query twoTagIndex ["b", "a"]).1 ∧
      (Full.Query customIndex ["a", "b"]).1.Perm (Full.Query customIndex ["b", "a"]).1) ∧
    ((Split.Query twoTagIndex ["a", "b"]).1.Perm
        (Split.Query twoTagIndex (["a", "b"] ++ ["a"])).1 ∧
      (Full.Query customIndex ["a", "b"]).1.Perm
        (Full.Query customIndex (["a", "b"] ++ ["a"])).1) ∧
    (Full.Query customIndex ["custom-team:red", "custom-fav:alice", "custom-team:red"]).1.Perm
      (Full.Query customIndex ["custom-fav:alice", "custom-team:red"]).1 :=
  ⟨by decide, by decide, by decide, by decide, by decide,
    (query_depends_on_tag_set twoTagIndex customIndex (by decide) (by decide)
      ["a", "b"]).2.1 ["b", "a"] (List.Perm.swap "b" "a" []),
    (query_depends_on_tag_set twoTagIndex customIndex (by decide) (by decide)
      ["a", "b"]).2.2 ["a"] (by decide),
    by decide⟩

end TagSet

/-! ## C24: no key is mapped to an empty bucket -/

section NoEmptyBuckets

theorem ne_nil_of_mem_bucket {m : GoMap String StrSet} {k x : String} {b : StrSet}
    (hg : m.get? k = some b) (hx : x ∈ (bucket m k).keys) : b ≠ [] := by
  rintro rfl
  simp [bucket, hg, GoMap.keys] at hx

theorem split_AddMetrics_noEmpty (i : Split.Index) (j : String) (ms : List String)
    (h : ∀ k b, i.joinToMetric.get? k = some b → b ≠ []) :
    ∀ k b, (Split.AddMetrics i j ms).1.joinToMetric.get? k = some b → b ≠ [] := by
  by_cases hms : ms = []
  · subst hms; exact h
  · obtain ⟨i1, heq, -, hother, -⟩ := split_AddMetrics_eq i j hms
    rw [heq]
    intro k b hg
    by_cases hk : j = k
    · subst hk
      obtain ⟨x, hx⟩ := List.exists_mem_of_ne_nil ms hms
      exact ne_nil_of_mem_bucket hg
        ((split_foldl_addMetric_bucket j ms i1 x).2 (Or.inl hx))
    · rw [split_foldl_addMetric_other j ms i1 hk, hother k hk] at hg
      exact h k b hg

theorem split_AddTags_noEmpty (i : Split.Index) (j : String) (ts : List String)
    (h : ∀ k b, i.tagToJoin.get? k = some b → b ≠ []) :
    ∀ k b, (Split.AddTags i j ts).1.tagToJoin.get? k = some b → b ≠ [] := by
  by_cases hts : ts = []
  · subst hts; exact h
  · rw [split_AddTags_eq i j hts]
    intro k b hg
    by_cases hk : k ∈ ts
    · exact ne_nil_of_mem_bucket hg
        ((split_foldl_addTag_bucket j ts i k j).2 (Or.inl ⟨hk, rfl⟩))
    · rw [split_foldl_addTag_other j ts i hk] at hg
      exact h k b hg

theorem split_reachable_noEmpty {i : Split.Index} (h : Split.Reachable i) :
    (∀ k b, i.tagToJoin.get? k = some b → b ≠ []) ∧
    (∀ k b, i.joinToMetric.get? k = some b → b ≠ []) := by
  induction h with
  | newIndex joinKey =>
    exact ⟨fun k b hg => by simp [Split.NewIndex, GoMap.get?] at hg,
      fun k b hg => by simp [Split.NewIndex, GoMap.get?] at hg⟩
  | addMetrics join metrics _ ih =>
    refine ⟨?_, split_AddMetrics_noEmpty _ join metrics ih.2⟩
    rw [(split_AddMetrics_frame _ join metrics).1]
    exact ih.1
  | addTags join tags _ ih =>
    refine ⟨split_AddTags_noEmpty _ join tags ih.1, ?_⟩
    rw [(split_AddTags_frame _ join tags).1]
    exact ih.2

theorem full_addMetric_other (tag : String) (i : Full.Index) (x : String) {u : String}
    (hu : tag ≠ u) : (Full.addMetric tag i x).index.get? u = i.index.get? u := by
  cases hg : (bucket i.index tag).get? x with
  | some v => rw [full_addMetric_of_some hg]
  | none =>
    rw [full_addMetric_of_none hg]
    exact GoMap.get?_set_ne _ _ hu

theorem full_foldl_addMetric_other (tag : String) (ms : List String) (i : Full.Index)
    {u : String} (hu : tag ≠ u) :
    (ms.foldl (Full.addMetric tag) i).index.get? u = i.index.get? u := by
  induction ms generalizing i with
  | nil => rfl
  | cons x xs ih => rw [List.foldl_cons, ih, full_addMetric_other tag i x hu]

theorem full_addTag_other (ms : List String) (i : Full.Index) (tag : String) {u : String}
    (hu : tag ≠ u) : (Full.addTag ms i tag).index.get? u = i.index.get? u := by
  unfold Full.addTag
  rw [full_foldl_addMetric_other tag ms _ hu]
  cases hs : i.index.get? tag with
  | some b => rfl
  | none => exact GoMap.get?_set_ne _ _ hu

theorem full_foldl_addTag_other (ms ts : List String) (i : Full.Index) {u : String}
    (hu : u ∉ ts) : (ts.foldl (Full.addTag ms) i).index.get? u = i.index.get? u := by
  induction ts generalizing i with
  | nil => rfl
  | cons t ts ih =>
    rw [List.mem_cons, not_or] at hu
    rw [List.foldl_cons, ih _ hu.2, full_addTag_other ms i t (fun h => hu.1 h.symm)]

theorem full_Add_noEmpty (i : Full.Index) (ts ms : List String)
    (h : ∀ k b, i.index.get? k = some b → b ≠ []) :
    ∀ k b, (Full.Add i ts ms).1.index.get? k = some b → b ≠ [] := by
  by_cases hms : ms = []
  · subst hms; exact h
  · by_cases hts : ts = []
    · subst hts
      have h1 : ¬ ms.length = 0 := by simpa using hms
      simpa [Full.Add, h1] using h
    · rw [full_Add_eq i hts hms]
      intro k b hg
      by_cases hk : k ∈ ts
      · obtain ⟨x, hx⟩ := List.exists_mem_of_ne_nil ms hms
        exact ne_nil_of_mem_bucket hg
          ((full_foldl_addTag_bucket ms ts i k x).2 (Or.inl ⟨hk, hx⟩))
      · rw [full_foldl_addTag_other ms ts i hk] at hg
        exact h k b hg

theorem full_reachable_noEmpty {i : Full.Index} (h : Full.Reachable i) :
    ∀ k b, i.index.get? k = some b → b ≠ [] := by
  induction h with
  | newIndex => exact fun k b hg => by simp [Full.NewIndex, GoMap.get?] at hg
  | add tags metrics _ ih => exact full_Add_noEmpty _ tags metrics ih

theorem split_run_reachable (ops : List Split.Op) {i : Split.Index}
    (h : Split.Reachable i) : Split.Reachable (Split.run i ops) := by
  unfold Split.run
  induction ops generalizing i with
  | nil => exact h
  | cons op ops ih =>
    apply ih
    cases op with
    | addMetrics j ms => exact Split.Reachable.addMetrics j ms h
    | addTags j ts => exact Split.Reachable.addTags j ts h
    | query T => exact h

theorem full_run_reachable (ops : List Full.Op) {i : Full.Index}
    (h : Full.Reachable i) : Full.Reachable (Full.run i ops) := by
  unfold Full.run
  induction ops generalizing i with
  | nil => exact h
  | cons op ops ih =>
    apply ih
    cases op with
    | add ts ms => exact Full.Reachable.add ts ms h
    | query T => exact h

/-- C24: in every state reached from `NewIndex` by a sequence of calls
(`AddMetrics`, `AddTags`, `Query` on the split index; `Add`, `Query` on the
full index; failing calls included), every key of `tagToJoin`, of
`joinToMetric` and of the full `index` is mapped to a non-empty set. -/
theorem no_empty_buckets (joinKey : String) (ops : List Split.Op)
    (fops : List Full.Op) :
    (∀ t b, (Split.run (Split.NewIndex joinKey) ops).tagToJoin.get? t = some b → b ≠ []) ∧
    (∀ j b, (Split.run (Split.NewIndex joinKey) ops).joinToMetric.get? j = some b →
      b ≠ []) ∧
    (∀ t b, (Full.run Full.NewIndex fops).index.get? t = some b → b ≠ []) :=
  ⟨(split_reachable_noEmpty
      (split_run_reachable ops (Split.Reachable.newIndex joinKey))).1,
    (split_reachable_noEmpty
      (split_run_reachable ops (Split.Reachable.newIndex joinKey))).2,
    full_reachable_noEmpty (full_run_reachable fops Full.Reachable.newIndex)⟩

/-- C24 on the calls of `TestQuery`, preceded by a failing `AddMetrics` for
another host: that host has no bucket, and the buckets there are hold one
element each. -/
theorem no_empty_buckets_witness :
    (Split.run (Split.NewIndex "host")
      [Split.Op.addMetrics "hostname-9" [],
        Split.Op.addMetrics "hostname-1234" ["server.hostname-1234"],
        Split.Op.addTags "hostname-1234" ["server-state:live", "server-dc:lhr"],
        Split.Op.query ["server-state:live"]]) = testIndex ∧
    testIndex.joinToMetric.get? "hostname-9" = none ∧
    testIndex.joinToMetric.get? "hostname-1234" = some [("server.hostname-1234", true)] ∧
    [("server.hostname-1234", true)] ≠ ([] : StrSet) ∧
    (∀ e ∈ testIndex.tagToJoin, e.2 ≠ []) ∧
    (∀ e ∈ customIndex.index, e.2 ≠ []) :=
  ⟨by decide, by decide, by decide,
    (no_empty_buckets "host"
      [Split.Op.addMetrics "hostname-9" [],
        Split.Op.addMetrics "hostname-1234" ["server.hostname-1234"],
        Split.Op.addTags "hostname-1234" ["server-state:live", "server-dc:lhr"],
        Split.Op.query ["server-state:live"]] []).2.1 "hostname-1234"
      [("server.hostname-1234", true)] (by decide),
    by decide, by decide⟩

end NoEmptyBuckets

end Carbonsearch
